import Mathlib

/-!
Verification of the solitaire rules engine (Card / Deck / Game) against its
natural-language specification.  The definitions below are a shallow embedding
of the JavaScript source: the mutable `row` / `column` fields that the source
stores on each singleton `Card` object are modelled as a position table
indexed by the card's index in `Deck.CARDS`, and operations that can raise a
JavaScript `TypeError` (reading a property of `null` / `undefined`) return
`Option`, with `none` standing for the thrown exception.
-/

set_option maxHeartbeats 1000000

/-- A card is identified by its rank and suit strings, exactly as in the
source (`class Card`).  The four blank placeholders have ranks `"B1"`..`"B4"`
and suit `"B"`; the JS singletons are in bijection with these values. -/
structure Card where
  rank : String
  suit : String
deriving DecidableEq, Repr

/-- `Card.RANKS` from the source. -/
def Card.RANKS : List String :=
  ["2", "3", "4", "5", "6", "7", "8", "9", "10", "J", "Q", "K"]

/-- The keys of `Card.SUITS` in insertion order (the symbol/color payload of
the JS map is presentation-only and carries no game logic). -/
def Card.SUIT_KEYS : List String := ["C", "D", "H", "S"]

/-- `card.isBlank()` from the source. -/
def Card.isBlank (c : Card) : Bool := c.suit = "B"

/-- `Deck.CARDS`: the 48 ranked cards in suit-major order followed by the four
blanks, as built by the static initializer. -/
def Deck.CARDS : List Card :=
  (Card.SUIT_KEYS.map (fun suit => Card.RANKS.map (fun rank => Card.mk rank suit))).flatten ++
    [Card.mk "B1" "B", Card.mk "B2" "B", Card.mk "B3" "B", Card.mk "B4" "B"]

/-- `Deck.CARDS_BY_KEY.get(makeKey(rank, suit))`: lookup of the singleton card
with the given rank and suit, `none` when no such card exists. -/
def Deck.cardsByKey (rank suit : String) : Option Card :=
  Deck.CARDS.find? (fun c => c.rank = rank && c.suit = suit)

/-- `card.nextRank`, as computed by the `Deck` static initializer:
`rankIndex = RANKS.indexOf(rank)`, then the card keyed by
`RANKS[rankIndex + 1]` and the same suit.  For a blank, JS computes
`RANKS[-1 + 1] = "2"` and then misses the key `"2B"`, leaving `undefined`;
both paths yield `none` here. -/
def Card.nextRank (c : Card) : Option Card :=
  match Card.RANKS.findIdx? (fun r => r = c.rank) with
  | some i => (Card.RANKS.get? (i + 1)).bind (fun r => Deck.cardsByKey r c.suit)
  | none => (Card.RANKS.get? 0).bind (fun r => Deck.cardsByKey r c.suit)

/-- `card.prevRank` from the same initializer: the card keyed by
`RANKS[rankIndex - 1]` and the same suit.  At `rankIndex = 0` JS reads
`RANKS[-1] = undefined` and leaves the field `null`; for a blank it reads
`RANKS[-2] = undefined`. -/
def Card.prevRank (c : Card) : Option Card :=
  match Card.RANKS.findIdx? (fun r => r = c.rank) with
  | some i =>
      if i = 0 then none
      else (Card.RANKS.get? (i - 1)).bind (fun r => Deck.cardsByKey r c.suit)
  | none => none

/-- `Deck.all()`. -/
def Deck.all : List Card := Deck.CARDS

/-- `Deck.getCardsByRank(rank)`. -/
def Deck.getCardsByRank (rank : String) : List Card :=
  Deck.CARDS.filter (fun c => c.rank = rank)

/-- `Deck.getBlanks()`. -/
def Deck.getBlanks : List Card :=
  Deck.CARDS.filter (fun c => c.isBlank)

/-- The index of a card in `Deck.CARDS` (52 when the card is not in the
deck).  The source stores `row` / `column` directly on the card singletons;
we key the position table by this index instead. -/
def Deck.cardIndex (c : Card) : Nat :=
  Deck.CARDS.findIdx (fun c' => c' = c)

/-- The position table: entry `Deck.cardIndex c` holds card `c`'s
`(row, column)` fields, `none` standing for the JS `null` / `null` pair
(the two fields are always assigned together in the source). -/
abbrev PosMap := List (Option (Nat × Nat))

/-- Read a card's `(row, column)` fields. -/
def PosMap.posOf (p : PosMap) (c : Card) : Option (Nat × Nat) :=
  p.getD (Deck.cardIndex c) none

/-- Write a card's `(row, column)` fields. -/
def PosMap.setPos (p : PosMap) (c : Card) (v : Option (Nat × Nat)) : PosMap :=
  p.set (Deck.cardIndex c) v

/-- The game state: `stock`, `rows` and the deal counter `meta.deals` of
`class Game`, together with the position table that models the `row` /
`column` fields living on the card singletons. -/
structure Game where
  stock : List Card
  rows : List (List Card)
  pos : PosMap
  deals : Nat
deriving DecidableEq, Repr

/-- A card's position in game `g`. -/
def Game.posOf (g : Game) (c : Card) : Option (Nat × Nat) := g.pos.posOf c

/-- The grid cell `rows[r][col]`, `none` for the JS `undefined` when either
index is out of range. -/
def Game.cellAt (g : Game) (r col : Nat) : Option Card :=
  (g.rows.get? r).bind (fun row => row.get? col)

/-- `new Game()`: full stock, four empty rows, zero deals; every card's
position fields start as `null`. -/
def initGame : Game :=
  { stock := Deck.all
    rows := [[], [], [], []]
    pos := List.replicate 52 none
    deals := 0 }

/-- `cardToLeft(card)`, i.e. `rows[card.row][card.column - 1]`.  At column 0
JS reads index `-1` and gets `undefined`; on a card with `null` position JS
would throw, a case that never arises at the call sites for cards located in
the grid (see `WF`), and is rendered as `none`. -/
def Game.cardToLeft (g : Game) (c : Card) : Option Card :=
  match g.posOf c with
  | some (r, col) => if col = 0 then none else g.cellAt r (col - 1)
  | none => none

/-- `cardToRight(card)`, i.e. `rows[card.row][card.column + 1]`; out-of-range
reads give the JS `undefined`, rendered as `none` (the `null`-position case is
as in `cardToLeft`). -/
def Game.cardToRight (g : Game) (c : Card) : Option Card :=
  match g.posOf c with
  | some (r, col) => g.cellAt r (col + 1)
  | none => none

/-- `Set.add`: append the element unless already present (JS sets preserve
insertion order and ignore duplicates). -/
def insertSet (l : List Card) (x : Card) : List Card :=
  if x ∈ l then l else l ++ [x]

/-- The `while (next && next === this.cardToRight(lastGoodCard))` walk of
`getFinalizedCards`, returning the cards it adds after `lastGood`.  The rank
chain is strictly increasing, so 12 units of fuel always suffice. -/
def Game.finalizeRun (g : Game) : Card → Nat → List Card
  | _, 0 => []
  | lastGood, fuel + 1 =>
      match lastGood.nextRank with
      | none => []
      | some nxt =>
          if g.cardToRight lastGood = some nxt then
            nxt :: g.finalizeRun nxt fuel
          else []

/-- `getFinalizedCards()`: for each row whose first card has rank `"2"`, the
contiguous same-suit ascending run from that card, accumulated into one set. -/
def Game.getFinalizedCards (g : Game) : List Card :=
  g.rows.foldl
    (fun finalized row =>
      match row with
      | [] => finalized
      | c0 :: _ =>
          if c0.rank = "2" then
            (c0 :: g.finalizeRun c0 12).foldl insertSet finalized
          else finalized)
    []

/-- `getMovableCards()`: per placed blank, column 0 contributes every rank-2
card, any other column contributes `cardToLeft.nextRank` when the left card
exists, is not blank and is not a King. -/
def Game.getMovableCards (g : Game) : List Card :=
  Deck.getBlanks.foldl
    (fun movable blank =>
      match g.posOf blank with
      | none => movable
      | some (_, col) =>
          if col = 0 then
            (Deck.getCardsByRank "2").foldl insertSet movable
          else
            match g.cardToLeft blank with
            | some left =>
                if ¬left.isBlank ∧ left.rank ≠ "K" then
                  match left.nextRank with
                  | some nxt => insertSet movable nxt
                  | none => movable
                else movable
            | none => movable)
    []

/-- One row of `clearUnfinished`'s loop: truncate at the first card that is
not finalized (`findIdx` returns the length when every card is finalized, so
`take` keeps the whole row and `drop` recycles nothing, matching the absent
`break`). -/
def Game.clearRow (finalized : List Card) (row : List Card) :
    List Card × List Card :=
  let k := row.findIdx (fun c => ¬ finalized.contains c)
  (row.take k, row.drop k)

/-- `clearUnfinished()`: recycle each row's non-finalized tail to the stock
(in row order) and null the position fields of every stocked card. -/
def Game.clearUnfinished (g : Game) : Game :=
  let finalized := g.getFinalizedCards
  let pairs := g.rows.map (Game.clearRow finalized)
  let stock' := g.stock ++ (pairs.map Prod.snd).flatten
  let pos' := stock'.foldl (fun p c => p.setPos c none) g.pos
  { stock := stock', rows := pairs.map Prod.fst, pos := pos', deals := g.deals }

/-- Swap entries `i` and `j` of a list (total; both indices are in range at
every use). -/
def listSwap (l : List Card) (i j : Nat) : List Card :=
  match l.get? i, l.get? j with
  | some a, some b => (l.set i b).set j a
  | _, _ => l

/-- The Fisher–Yates loop of `shuffled`, counting `i` down; `rand i % (i+1)`
models `Math.floor(Math.random() * (i + 1))`, which is exactly a choice in
`[0, i]`. -/
def fyAux (rand : Nat → Nat) : List Card → Nat → List Card
  | l, 0 => l
  | l, i + 1 => fyAux rand (listSwap l (i + 1) (rand (i + 1) % (i + 2))) i

/-- `shuffled(array)`: Fisher–Yates from `length - 1` down to `1`, the random
draws supplied by `rand`. -/
def shuffled (rand : Nat → Nat) (l : List Card) : List Card :=
  fyAux rand l (l.length - 1)

/-- The `while (row.length < 13)` filling loop of `deal` for one row:
shift a card off the stock, set its position fields to `(rowIndex, length)`
and push it.  An empty stock means `stock.shift()` gives `undefined` and the
subsequent field write throws: `none`.  The fuel `13` is always enough since
the row grows by one per iteration. -/
def Game.fillRowAux (ri : Nat) :
    Nat → List Card → List Card → PosMap → Option (List Card × List Card × PosMap)
  | 0, stock, row, pos =>
      if row.length < 13 then none else some (stock, row, pos)
  | fuel + 1, stock, row, pos =>
      if row.length < 13 then
        match stock with
        | [] => none
        | c :: rest =>
            Game.fillRowAux ri fuel rest (row ++ [c])
              (pos.setPos c (some (ri, row.length)))
      else some (stock, row, pos)

/-- Fill one row to 13 cards. -/
def Game.fillRow (ri : Nat) (stock row : List Card) (pos : PosMap) :
    Option (List Card × List Card × PosMap) :=
  Game.fillRowAux ri 13 stock row pos

/-- The `for (const [rowIndex, row] of enumerate(self.rows))` loop of `deal`,
threading stock and the position table through the rows. -/
def Game.fillRows :
    Nat → List (List Card) → List Card → PosMap →
      Option (List (List Card) × List Card × PosMap)
  | _, [], stock, pos => some ([], stock, pos)
  | ri, row :: rest, stock, pos =>
      (Game.fillRow ri stock row pos).bind fun srp =>
        (Game.fillRows (ri + 1) rest srp.1 srp.2.2).bind fun rsp =>
          some (srp.2.1 :: rsp.1, rsp.2.1, rsp.2.2)

/-- `deal()`: blocked (returned unchanged) when any card is movable;
otherwise clear, shuffle, refill every row to 13 and bump the deal counter. -/
def Game.deal (rand : Nat → Nat) (g : Game) : Option Game :=
  if g.getMovableCards ≠ [] then some g
  else
    let s := g.clearUnfinished
    let stock1 := shuffled rand s.stock
    (Game.fillRows 0 s.rows stock1 s.pos).bind fun rsp =>
      some { stock := rsp.2.1, rows := rsp.1, pos := rsp.2.2, deals := s.deals + 1 }

/-- `_swap(card, dest)`: exchange the two cards' position fields, then write
each card into the grid cell of its new position.  A `null` new position makes
the grid write `rows[null][...] = …` throw: `none`.  (JS would silently
*extend* a row on an out-of-range column; that cannot arise for positions that
are consistent with the grid, and is rendered as `none` as well.) -/
def Game._swap (g : Game) (card dest : Card) : Option Game :=
  match g.posOf card, g.posOf dest with
  | some (r1, c1), some (r2, c2) =>
      let pos' := (g.pos.setPos card (some (r2, c2))).setPos dest (some (r1, c1))
      match g.rows.get? r2, g.rows.get? r1 with
      | some row2, some _ =>
          if c2 < row2.length then
            let rows1 := g.rows.set r2 (row2.set c2 card)
            match rows1.get? r1 with
            | some row1' =>
                if c1 < row1'.length then
                  some { g with pos := pos', rows := rows1.set r1 (row1'.set c1 dest) }
                else none
            | none => none
          else none
      | _, _ => none
  | _, _ => none

/-- Insert a card into a list sorted by its row field (the
`.sort((a, b) => a.row - b.row)` of `move`; every sorted card has a position,
and on the states where `move` sorts, the keys are distinct). -/
def Game.insertByRow (g : Game) (c : Card) : List Card → List Card
  | [] => [c]
  | d :: rest =>
      if ((g.posOf c).map Prod.fst).getD 0 < ((g.posOf d).map Prod.fst).getD 0 then
        c :: d :: rest
      else d :: g.insertByRow c rest

/-- Sort a list of cards by their row field. -/
def Game.sortByRow (g : Game) : List Card → List Card
  | [] => []
  | c :: rest => g.insertByRow c (g.sortByRow rest)

/-- `move(card)`.  Rank-2 cards go to the first column-0 blank (wrapping past
their own row when already in column 0); other cards swap with the blank
immediately to the right of their predecessor when that cell exists and is
blank.  `none` models the thrown `TypeError` when the code reads `.column` of
a `null` predecessor or indexes `rows[null]` (predecessor not dealt, or a
blank passed as `card`). -/
def Game.move (g : Game) (card : Card) : Option Game :=
  if card.rank = "2" then
    let blanksFirstColumn :=
      g.sortByRow (Deck.getBlanks.filter (fun c => (g.posOf c).map Prod.snd = some 0))
    match blanksFirstColumn with
    | [] => some g
    | b0 :: _ =>
        if (g.posOf card).map Prod.snd ≠ some 0 then
          g._swap card b0
        else
          let blanksAfterCurrent := blanksFirstColumn.filter
            (fun c => ((g.posOf card).map Prod.fst).getD 0 <
              ((g.posOf c).map Prod.fst).getD 0)
          match blanksAfterCurrent with
          | b :: _ => g._swap card b
          | [] => g._swap card b0
  else
    match card.prevRank with
    | none => none
    | some nextLowest =>
        match g.posOf nextLowest with
        | none => none
        | some (pr, pc) =>
            match g.rows.get? pr with
            | none => none
            | some prow =>
                if pc + 1 < prow.length then
                  match prow.get? (pc + 1) with
                  | some dest =>
                      if dest.isBlank then g._swap card dest else some g
                  | none => none
                else some g

/-- The states reachable from `new Game()` by `deal` (under any outcomes of
the shuffle), `move` (on any card) and `clearUnfinished`; a `none` result of a
fallible operation (a thrown exception) produces no new state. -/
inductive Reachable : Game → Prop
  | init : Reachable initGame
  | deal (rand : Nat → Nat) {g g' : Game} :
      Reachable g → Game.deal rand g = some g' → Reachable g'
  | move (c : Card) {g g' : Game} :
      Reachable g → Game.move g c = some g' → Reachable g'
  | clear {g : Game} : Reachable g → Reachable g.clearUnfinished

/-! ## Generic list lemmas -/

theorem set_get_self {α : Type} : ∀ (l : List α) (i : Nat) (a : α),
    l.get? i = some a → l.set i a = l
  | [], _, _, h => by simp at h
  | x :: xs, 0, a, h => by simp_all
  | x :: xs, i + 1, a, h => by
      simp only [List.get?_cons_succ] at h
      simp [List.set_cons_succ, set_get_self xs i a h]

theorem sum_map_set {α : Type} (f : α → Nat) :
    ∀ (l : List α) (i : Nat) (a b : α), l.get? i = some a →
      ((l.set i b).map f).sum + f a = (l.map f).sum + f b
  | [], _, _, _, h => by simp at h
  | x :: xs, 0, a, b, h => by
      simp only [List.get?_cons_zero, Option.some.injEq] at h
      subst h; simp; omega
  | x :: xs, i + 1, a, b, h => by
      simp only [List.get?_cons_succ] at h
      have := sum_map_set f xs i a b h
      simp only [List.set_cons_succ, List.map_cons, List.sum_cons]
      omega

theorem count_set {α : Type} [DecidableEq α] (l : List α) (i : Nat) (a b x : α)
    (h : l.get? i = some a) :
    (l.set i b).count x + (if a = x then 1 else 0) =
      l.count x + (if b = x then 1 else 0) := by
  have key := sum_map_set (fun y => if y = x then 1 else 0) l i a b h
  have cnt : ∀ (m : List α), m.count x = (m.map (fun y => if y = x then 1 else 0)).sum := by
    intro m
    induction m with
    | nil => simp
    | cons y ys ih =>
        rw [List.count_cons, List.map_cons, List.sum_cons, ih]
        by_cases hyx : y = x
        · simp [hyx]; omega
        · simp [hyx]
  rw [cnt, cnt]
  simp only [] at key
  omega

theorem count_listSwap (l : List Card) (i j : Nat) (x : Card) :
    (listSwap l i j).count x = l.count x := by
  unfold listSwap
  cases hi : l.get? i with
  | none => rfl
  | some a =>
      cases hj : l.get? j with
      | none => rfl
      | some b =>
          simp only []
          by_cases hij : i = j
          · subst hij
            rw [hi] at hj
            injection hj with hab
            subst hab
            rw [set_get_self _ _ _ hi, set_get_self _ _ _ hi]
          · have h1 := count_set l i a b x hi
            have hj' : (l.set i b).get? j = some b := by
              rw [List.get?_eq_getElem?, List.getElem?_set_ne (by omega)]
              rw [← List.get?_eq_getElem?]; exact hj
            have h2 := count_set (l.set i b) j b a x hj'
            omega

theorem perm_listSwap (l : List Card) (i j : Nat) : (listSwap l i j).Perm l :=
  List.perm_iff_count.mpr (fun x => count_listSwap l i j x)

theorem perm_fyAux (rand : Nat → Nat) : ∀ (l : List Card) (n : Nat), (fyAux rand l n).Perm l
  | l, 0 => List.Perm.refl l
  | l, n + 1 =>
      (perm_fyAux rand (listSwap l (n + 1) (rand (n + 1) % (n + 2))) n).trans
        (perm_listSwap l (n + 1) (rand (n + 1) % (n + 2)))

/-- The shuffle is a permutation of its input. -/
theorem perm_shuffled (rand : Nat → Nat) (l : List Card) : (shuffled rand l).Perm l :=
  perm_fyAux rand l (l.length - 1)

theorem mem_insertSet {l : List Card} {x y : Card} :
    x ∈ insertSet l y ↔ x ∈ l ∨ x = y := by
  unfold insertSet
  by_cases h : y ∈ l
  · simp only [if_pos h]
    constructor
    · exact Or.inl
    · rintro (hx | rfl)
      · exact hx
      · exact h
  · simp only [if_neg h, List.mem_append, List.mem_singleton]

theorem nodup_insertSet {l : List Card} {y : Card} (h : l.Nodup) :
    (insertSet l y).Nodup := by
  unfold insertSet
  by_cases hm : y ∈ l
  · simpa [hm]
  · simp only [if_neg hm]
    refine h.append (List.nodup_singleton y) ?_
    intro a ha hay
    simp only [List.mem_singleton] at hay
    subst hay
    exact hm ha

theorem mem_foldl_insertSet {L : List Card} :
    ∀ {acc : List Card} {x : Card}, x ∈ L.foldl insertSet acc ↔ x ∈ acc ∨ x ∈ L := by
  induction L with
  | nil => simp
  | cons y ys ih =>
      intro acc x
      simp only [List.foldl_cons, ih, mem_insertSet, List.mem_cons]
      tauto

theorem nodup_foldl_insertSet {L : List Card} :
    ∀ {acc : List Card}, acc.Nodup → (L.foldl insertSet acc).Nodup := by
  induction L with
  | nil => intro acc h; simpa
  | cons y ys ih => intro acc h; exact ih (nodup_insertSet h)

/-! ## Facts about the concrete deck -/

theorem deck_nodup : Deck.CARDS.Nodup := by decide

theorem deck_length : Deck.CARDS.length = 52 := by decide

theorem cardIndex_get : ∀ c ∈ Deck.CARDS, Deck.CARDS.get? (Deck.cardIndex c) = some c := by
  decide

theorem nextRank_facts : ∀ c ∈ Deck.CARDS, ∀ n ∈ c.nextRank.toList,
    n ∈ Deck.CARDS ∧ ¬n.isBlank ∧ n.rank ≠ "2" ∧ n.prevRank = some c := by decide

theorem prevRank_facts : ∀ c ∈ Deck.CARDS, ∀ p ∈ c.prevRank.toList,
    p ∈ Deck.CARDS ∧ ¬p.isBlank ∧ p.rank ≠ "K" ∧ p.nextRank = some c := by decide

theorem blanks_eq : Deck.getBlanks =
    [Card.mk "B1" "B", Card.mk "B2" "B", Card.mk "B3" "B", Card.mk "B4" "B"] := by decide

theorem twos_eq : Deck.getCardsByRank "2" =
    [Card.mk "2" "C", Card.mk "2" "D", Card.mk "2" "H", Card.mk "2" "S"] := by decide

theorem blank_rank_not_two : ∀ b ∈ Deck.getBlanks, b.rank ≠ "2" := by decide

theorem blank_mem_deck : ∀ b ∈ Deck.getBlanks, b ∈ Deck.CARDS := by decide

theorem two_rank_mem : ∀ c ∈ Deck.CARDS, c.rank = "2" → c ∈ Deck.getCardsByRank "2" := by
  decide

theorem nonblank_not_K_next : ∀ c ∈ Deck.CARDS, ¬c.isBlank → c.rank ≠ "K" →
    c.nextRank.isSome := by decide

theorem cardIndex_lt (c : Card) (hc : c ∈ Deck.CARDS) : Deck.cardIndex c < 52 := by
  have h := cardIndex_get c hc
  obtain ⟨hlt, -⟩ := List.get?_eq_some.mp h
  rw [deck_length] at hlt
  exact hlt


theorem cardIndex_inj {c d : Card} (hc : c ∈ Deck.CARDS) (hd : d ∈ Deck.CARDS)
    (h : Deck.cardIndex c = Deck.cardIndex d) : c = d := by
  have h1 := cardIndex_get c hc
  have h2 := cardIndex_get d hd
  rw [h] at h1
  rw [h1] at h2
  injection h2

theorem nextRank_spec {c n : Card} (hc : c ∈ Deck.CARDS) (h : c.nextRank = some n) :
    n ∈ Deck.CARDS ∧ ¬n.isBlank ∧ n.rank ≠ "2" ∧ n.prevRank = some c := by
  have := nextRank_facts c hc n
  rw [h] at this
  exact this (List.mem_singleton.mpr rfl)

theorem prevRank_spec {c p : Card} (hc : c ∈ Deck.CARDS) (h : c.prevRank = some p) :
    p ∈ Deck.CARDS ∧ ¬p.isBlank ∧ p.rank ≠ "K" ∧ p.nextRank = some c := by
  have := prevRank_facts c hc p
  rw [h] at this
  exact this (List.mem_singleton.mpr rfl)

/-! ## Position-table lemmas -/

theorem posOf_not_mem_deck {p : PosMap} (hp : p.length = 52) {c : Card}
    (hc : c ∉ Deck.CARDS) : p.posOf c = none := by
  unfold PosMap.posOf
  have hidx : Deck.cardIndex c = Deck.CARDS.length := by
    unfold Deck.cardIndex
    rw [List.findIdx_eq_length]
    intro x hx
    simp only [decide_eq_false_iff_not]
    intro hxc
    exact hc (hxc ▸ hx)
  rw [List.getD_eq_getElem?_getD, List.getElem?_eq_none (by rw [hp, hidx, deck_length])]
  rfl

theorem length_setPos (p : PosMap) (c : Card) (v : Option (Nat × Nat)) :
    (p.setPos c v).length = p.length := by
  unfold PosMap.setPos
  exact p.length_set _ _

theorem posOf_setPos_self {p : PosMap} (hp : p.length = 52) {c : Card}
    (hc : c ∈ Deck.CARDS) (v : Option (Nat × Nat)) : (p.setPos c v).posOf c = v := by
  unfold PosMap.setPos PosMap.posOf
  have hlt : Deck.cardIndex c < p.length := by rw [hp]; exact cardIndex_lt c hc
  rw [List.getD_eq_getElem?_getD, List.getElem?_set_self (by simpa using hlt)]
  rfl

theorem posOf_setPos_ne {p : PosMap} {c d : Card} (hne : Deck.cardIndex c ≠ Deck.cardIndex d)
    (v : Option (Nat × Nat)) : (p.setPos c v).posOf d = p.posOf d := by
  unfold PosMap.setPos PosMap.posOf
  rw [List.getD_eq_getElem?_getD, List.getD_eq_getElem?_getD, List.getElem?_set_ne hne]

/-! ## The well-formedness invariant of reachable game states -/

/-- Well-formedness: four rows of at most 13 cards, the stock and rows
partition the 52-card deck, every card's position fields agree with the grid
cell holding it, stocked cards are unpositioned, and a placed blank implies an
empty stock (blanks are only ever placed by `deal`, which empties the
stock). -/
structure WF (g : Game) : Prop where
  rowsLen : g.rows.length = 4
  rowLen : ∀ row ∈ g.rows, row.length ≤ 13
  posLen : g.pos.length = 52
  perm : (g.stock ++ g.rows.flatten).Perm Deck.CARDS
  stockPos : ∀ c ∈ g.stock, g.posOf c = none
  gridPos : ∀ r i row c, g.rows.get? r = some row → row.get? i = some c →
      g.posOf c = some (r, i)
  blanksNull : g.stock = [] ∨ ∀ b ∈ Deck.getBlanks, g.posOf b = none

theorem WF.allNodup {g : Game} (h : WF g) : (g.stock ++ g.rows.flatten).Nodup :=
  h.perm.nodup_iff.mpr deck_nodup

theorem WF.stockSub {g : Game} (h : WF g) : ∀ c ∈ g.stock, c ∈ Deck.CARDS := by
  intro c hc
  exact h.perm.subset (List.mem_append_left _ hc)

theorem WF.rowsSub {g : Game} (h : WF g) : ∀ row ∈ g.rows, ∀ c ∈ row, c ∈ Deck.CARDS := by
  intro row hrow c hc
  exact h.perm.subset (List.mem_append_right _ (List.mem_flatten.mpr ⟨row, hrow, hc⟩))

theorem WF.stockDisjoint {g : Game} (h : WF g) : g.stock.Disjoint g.rows.flatten :=
  List.disjoint_of_nodup_append h.allNodup

theorem WF.flattenNodup {g : Game} (h : WF g) : g.rows.flatten.Nodup :=
  (List.nodup_append.mp h.allNodup).2.1

theorem WF.rowNodup {g : Game} (h : WF g) : ∀ row ∈ g.rows, row.Nodup := by
  intro row hrow
  exact (List.nodup_flatten.mp h.flattenNodup).1 row hrow

/-- Destructure an occupied grid cell. -/
theorem cellAt_eq {g : Game} {r i : Nat} {c : Card} (h : g.cellAt r i = some c) :
    ∃ row, g.rows.get? r = some row ∧ row.get? i = some c := by
  unfold Game.cellAt at h
  cases hr : g.rows.get? r with
  | none => rw [hr] at h; simp at h
  | some row =>
      rw [hr] at h
      exact ⟨row, rfl, by simpa using h⟩

/-- The position of a card occupying a grid cell is that cell. -/
theorem WF.cell_pos {g : Game} (h : WF g) {r i : Nat} {c : Card}
    (hc : g.cellAt r i = some c) : g.posOf c = some (r, i) := by
  obtain ⟨row, hr, hi⟩ := cellAt_eq hc
  exact h.gridPos r i row c hr hi

/-- Two occupied grid cells holding the same card coincide. -/
theorem WF.cell_inj {g : Game} (h : WF g) {r1 i1 r2 i2 : Nat} {c : Card}
    (h1 : g.cellAt r1 i1 = some c) (h2 : g.cellAt r2 i2 = some c) :
    r1 = r2 ∧ i1 = i2 := by
  have p1 := h.cell_pos h1
  have p2 := h.cell_pos h2
  rw [p1] at p2
  injection p2 with p3
  exact ⟨congrArg Prod.fst p3, congrArg Prod.snd p3⟩

/-- A positioned card of the deck sits at exactly that grid cell. -/
theorem WF.pos_cell {g : Game} (h : WF g) {c : Card} {r i : Nat}
    (hc : c ∈ Deck.CARDS) (hpos : g.posOf c = some (r, i)) : g.cellAt r i = some c := by
  have hmem : c ∈ g.stock ++ g.rows.flatten := h.perm.mem_iff.mpr hc
  rcases List.mem_append.mp hmem with hs | hf
  · rw [h.stockPos c hs] at hpos
    simp at hpos
  · obtain ⟨row, hrow, hcrow⟩ := List.mem_flatten.mp hf
    obtain ⟨r', hr'⟩ := List.mem_iff_get?.mp hrow
    obtain ⟨i', hi'⟩ := List.mem_iff_get?.mp hcrow
    have := h.gridPos r' i' row c hr' hi'
    rw [hpos] at this
    injection this with h3
    have hr'' : r = r' := congrArg Prod.fst h3
    have hi'' : i = i' := congrArg Prod.snd h3
    subst hr''; subst hi''
    unfold Game.cellAt
    rw [hr']
    simpa using hi'

/-! ## Characterizing the finalized set as a per-row chain -/

/-- The list-level description of the run walk: successive cards of the row
suffix while each is the `nextRank` of the previous one. -/
def chainFrom (prev : Card) : List Card → List Card
  | [] => []
  | c :: rest => if prev.nextRank = some c then c :: chainFrom c rest else []

/-- The finalized run of one row: present only when the row head has rank
`"2"`, then the head followed by the chain it starts. -/
def chainTake : List Card → List Card
  | [] => []
  | c :: rest => if c.rank = "2" then c :: chainFrom c rest else []

theorem chainFrom_nil (prev : Card) : chainFrom prev [] = [] := rfl

theorem chainFrom_cons (prev c : Card) (rest : List Card) :
    chainFrom prev (c :: rest) =
      if prev.nextRank = some c then c :: chainFrom c rest else [] := rfl

theorem chainTake_nil : chainTake [] = [] := rfl

theorem chainTake_cons (c : Card) (rest : List Card) :
    chainTake (c :: rest) = if c.rank = "2" then c :: chainFrom c rest else [] := rfl

theorem prefix_cons {l1 l2 : List Card} (c : Card) (h : l1 <+: l2) :
    c :: l1 <+: c :: l2 := by
  obtain ⟨t, ht⟩ := h
  exact ⟨t, by rw [List.cons_append, ht]⟩

theorem chainFrom_isPrefix (prev : Card) : ∀ l : List Card, chainFrom prev l <+: l
  | [] => List.prefix_refl []
  | c :: rest => by
      rw [chainFrom_cons]
      by_cases h : prev.nextRank = some c
      · rw [if_pos h]
        exact prefix_cons c (chainFrom_isPrefix c rest)
      · rw [if_neg h]
        exact List.nil_prefix

theorem chainTake_isPrefix (row : List Card) : chainTake row <+: row := by
  cases row with
  | nil => exact List.prefix_refl []
  | cons c rest =>
      rw [chainTake_cons]
      by_cases h : c.rank = "2"
      · rw [if_pos h]
        exact prefix_cons c (chainFrom_isPrefix c rest)
      · rw [if_neg h]
        exact List.nil_prefix

theorem mem_chainFrom_next {x : Card} : ∀ {l : List Card} (prev : Card),
    x ∈ chainFrom prev l → ∃ w : Card, w.nextRank = some x := by
  intro l
  induction l with
  | nil => intro prev h; rw [chainFrom_nil] at h; simp at h
  | cons c rest ih =>
      intro prev h
      rw [chainFrom_cons] at h
      by_cases hc : prev.nextRank = some c
      · rw [if_pos hc] at h
        rcases List.mem_cons.mp h with rfl | hmem
        · exact ⟨prev, hc⟩
        · exact ih c hmem
      · rw [if_neg hc] at h
        simp at h

theorem chainFrom_head {prev c : Card} {l rest : List Card}
    (h : chainFrom prev l = c :: rest) : prev.nextRank = some c := by
  cases l with
  | nil => rw [chainFrom_nil] at h; simp at h
  | cons d tail =>
      rw [chainFrom_cons] at h
      by_cases hd : prev.nextRank = some d
      · rw [if_pos hd] at h
        injection h with h1 _
        rw [h1] at hd
        exact hd
      · rw [if_neg hd] at h
        simp at h

theorem chainFrom_links {x y : Card} : ∀ {l : List Card} (prev : Card) (j : Nat),
    (chainFrom prev l).get? j = some x → (chainFrom prev l).get? (j + 1) = some y →
      x.nextRank = some y := by
  intro l
  induction l with
  | nil => intro prev j hx hy; rw [chainFrom_nil] at hx; simp at hx
  | cons c rest ih =>
      intro prev j hx hy
      rw [chainFrom_cons] at hx hy
      by_cases hc : prev.nextRank = some c
      · rw [if_pos hc] at hx hy
        cases j with
        | zero =>
            simp only [List.get?_cons_zero, Option.some.injEq] at hx
            simp only [List.get?_cons_succ] at hy
            rw [← hx]
            cases hfrom : chainFrom c rest with
            | nil => rw [hfrom] at hy; simp at hy
            | cons d tail =>
                rw [hfrom] at hy
                simp only [List.get?_cons_zero, Option.some.injEq] at hy
                rw [← hy]
                exact chainFrom_head hfrom
        | succ j' =>
            simp only [List.get?_cons_succ] at hx hy
            exact ih c j' hx hy
      · rw [if_neg hc] at hx
        simp at hx

theorem chainTake_links {row : List Card} (j : Nat) {x y : Card}
    (hx : (chainTake row).get? j = some x) (hy : (chainTake row).get? (j + 1) = some y) :
    x.nextRank = some y := by
  cases row with
  | nil => rw [chainTake_nil] at hx; simp at hx
  | cons c rest =>
      rw [chainTake_cons] at hx hy
      by_cases hc : c.rank = "2"
      · rw [if_pos hc] at hx hy
        cases j with
        | zero =>
            simp only [List.get?_cons_zero, Option.some.injEq] at hx
            simp only [List.get?_cons_succ] at hy
            rw [← hx]
            cases hfrom : chainFrom c rest with
            | nil => rw [hfrom] at hy; simp at hy
            | cons d tail =>
                rw [hfrom] at hy
                simp only [List.get?_cons_zero, Option.some.injEq] at hy
                rw [← hy]
                exact chainFrom_head hfrom
        | succ j' =>
            simp only [List.get?_cons_succ] at hx hy
            exact chainFrom_links c j' hx hy
      · rw [if_neg hc] at hx
        simp at hx

theorem chainTake_head {row : List Card} {c : Card} {rest : List Card}
    (h : chainTake row = c :: rest) :
    row.get? 0 = some c ∧ c.rank = "2" ∧ rest = chainFrom c row.tail := by
  cases row with
  | nil => rw [chainTake_nil] at h; simp at h
  | cons c0 tail =>
      rw [chainTake_cons] at h
      by_cases hc : c0.rank = "2"
      · rw [if_pos hc] at h
        injection h with h1 h2
        subst h1
        exact ⟨rfl, hc, h2.symm⟩
      · rw [if_neg hc] at h
        simp at h

theorem chainFrom_chainFrom (prev : Card) : ∀ l : List Card,
    chainFrom prev (chainFrom prev l) = chainFrom prev l
  | [] => rfl
  | c :: rest => by
      rw [chainFrom_cons]
      by_cases h : prev.nextRank = some c
      · rw [if_pos h, chainFrom_cons, if_pos h, chainFrom_chainFrom c rest]
      · rw [if_neg h, chainFrom_nil]

theorem chainTake_chainTake (row : List Card) : chainTake (chainTake row) = chainTake row := by
  cases row with
  | nil => rfl
  | cons c rest =>
      rw [chainTake_cons]
      by_cases h : c.rank = "2"
      · rw [if_pos h, chainTake_cons, if_pos h, chainFrom_chainFrom c rest]
      · rw [if_neg h, chainTake_nil]

/-- Pointwise-equal step functions fold identically. -/
theorem foldl_ext {α β : Type} (f f' : β → α → β) (h : ∀ b a, f b a = f' b a) :
    ∀ (l : List α) (b : β), l.foldl f b = l.foldl f' b := by
  intro l
  induction l with
  | nil => intro b; rfl
  | cons a as ih => intro b; rw [List.foldl_cons, List.foldl_cons, h, ih]

/-- The per-row contribution of `getFinalizedCards`. -/
def Game.rowRun (g : Game) (row : List Card) : List Card :=
  match row with
  | [] => []
  | c0 :: _ => if c0.rank = "2" then c0 :: g.finalizeRun c0 12 else []

theorem getFinalizedCards_eq_foldl (g : Game) :
    g.getFinalizedCards =
      g.rows.foldl (fun fin row => (g.rowRun row).foldl insertSet fin) [] := by
  unfold Game.getFinalizedCards
  refine foldl_ext _ _ ?_ g.rows []
  intro fin row
  unfold Game.rowRun
  cases row with
  | nil => rfl
  | cons c0 rest =>
      by_cases hc : c0.rank = "2"
      · simp only [if_pos hc]
      · simp only [if_neg hc]
        rfl

theorem mem_foldl_contrib {α : Type} (contrib : α → List Card) :
    ∀ (l : List α) (acc : List Card) (x : Card),
      x ∈ l.foldl (fun fin a => (contrib a).foldl insertSet fin) acc ↔
        x ∈ acc ∨ ∃ a ∈ l, x ∈ contrib a := by
  intro l
  induction l with
  | nil => intro acc x; simp
  | cons a as ih =>
      intro acc x
      rw [List.foldl_cons, ih]
      rw [mem_foldl_insertSet]
      constructor
      · rintro ((hacc | hca) | ⟨b, hb, hcb⟩)
        · exact Or.inl hacc
        · exact Or.inr ⟨a, List.mem_cons_self a as, hca⟩
        · exact Or.inr ⟨b, List.mem_cons_of_mem a hb, hcb⟩
      · rintro (hacc | ⟨b, hb, hcb⟩)
        · exact Or.inl (Or.inl hacc)
        · rcases List.mem_cons.mp hb with rfl | hb'
          · exact Or.inl (Or.inr hcb)
          · exact Or.inr ⟨b, hb', hcb⟩

theorem mem_getFinalizedCards_iff {g : Game} {x : Card} :
    x ∈ g.getFinalizedCards ↔ ∃ row ∈ g.rows, x ∈ g.rowRun row := by
  rw [getFinalizedCards_eq_foldl, mem_foldl_contrib]
  simp

theorem getFinalizedCards_nodup (g : Game) : g.getFinalizedCards.Nodup := by
  rw [getFinalizedCards_eq_foldl]
  have : ∀ (rows : List (List Card)) (acc : List Card), acc.Nodup →
      (rows.foldl (fun fin row => (g.rowRun row).foldl insertSet fin) acc).Nodup := by
    intro rows
    induction rows with
    | nil => intro acc h; simpa
    | cons r rs ih => intro acc h; exact ih _ (nodup_foldl_insertSet h)
  exact this g.rows [] List.nodup_nil

theorem finalizeRun_zero (g : Game) (x : Card) : g.finalizeRun x 0 = [] := rfl

theorem finalizeRun_succ (g : Game) (x : Card) (f : Nat) :
    g.finalizeRun x (f + 1) =
      match x.nextRank with
      | none => []
      | some nxt => if g.cardToRight x = some nxt then nxt :: g.finalizeRun nxt f else [] :=
  rfl

/-- Under well-formedness, `cardToRight` of the card at `(r, i)` reads the
next cell of that row. -/
theorem WF.cardToRight_eq {g : Game} (hWF : WF g) {r i : Nat} {row : List Card} {x : Card}
    (hr : g.rows.get? r = some row) (hx : row.get? i = some x) :
    g.cardToRight x = row.get? (i + 1) := by
  unfold Game.cardToRight
  rw [hWF.gridPos r i row x hr hx]
  show g.cellAt r (i + 1) = row.get? (i + 1)
  unfold Game.cellAt
  rw [hr]
  rfl

/-- Under well-formedness the grid walk from a card of a row follows exactly
the list-level chain on the rest of that row. -/
theorem finalizeRun_eq_chainFrom {g : Game} (hWF : WF g) {r : Nat} {row : List Card}
    (hr : g.rows.get? r = some row) :
    ∀ (rest : List Card) (i : Nat) (x : Card) (fuel : Nat), row.get? i = some x →
      row.drop (i + 1) = rest → rest.length ≤ fuel →
      g.finalizeRun x fuel = chainFrom x rest := by
  intro rest
  induction rest with
  | nil =>
      intro i x fuel hx hdrop hfuel
      have hnone : row.get? (i + 1) = none :=
        List.get?_eq_none.mpr (List.drop_eq_nil_iff.mp hdrop)
      have hright : g.cardToRight x = none := (hWF.cardToRight_eq hr hx).trans hnone
      cases fuel with
      | zero => rfl
      | succ f =>
          rw [finalizeRun_succ]
          cases hnx : x.nextRank with
          | none => rfl
          | some nxt =>
              show (if g.cardToRight x = some nxt then nxt :: g.finalizeRun nxt f else []) = _
              rw [hright, chainFrom_nil, if_neg (by simp)]
  | cons c rest' ih =>
      intro i x fuel hx hdrop hfuel
      have hc1 : row.get? (i + 1) = some c := by
        have h0 := List.getElem?_drop row (i + 1) 0
        rw [hdrop] at h0
        rw [List.get?_eq_getElem?]
        simpa using h0.symm
      have hright : g.cardToRight x = some c := (hWF.cardToRight_eq hr hx).trans hc1
      cases fuel with
      | zero => simp at hfuel
      | succ f =>
          rw [finalizeRun_succ, chainFrom_cons]
          cases hnx : x.nextRank with
          | none => rw [if_neg (by simp)]
          | some nxt =>
              show (if g.cardToRight x = some nxt then nxt :: g.finalizeRun nxt f else []) = _
              by_cases heq : nxt = c
              · subst heq
                rw [hright, if_pos rfl, if_pos rfl]
                have hdrop' : row.drop (i + 1 + 1) = rest' := by
                  have h2 : (row.drop (i + 1)).drop 1 = row.drop (i + 1 + 1) :=
                    List.drop_drop 1 (i + 1) row
                  rw [← h2, hdrop]
                  rfl
                rw [ih (i + 1) nxt f hc1 hdrop' (by simpa using hfuel)]
              · rw [hright]
                have h1 : ¬((some c : Option Card) = some nxt) := by
                  intro h
                  exact heq (Option.some.inj h).symm
                have h2 : ¬((some nxt : Option Card) = some c) := by
                  intro h
                  exact heq (Option.some.inj h)
                rw [if_neg h1, if_neg h2]

/-- Under well-formedness, each row's contribution to the finalized set is the
list-level chain of that row. -/
theorem rowRun_eq_chainTake {g : Game} (hWF : WF g) {r : Nat} {row : List Card}
    (hr : g.rows.get? r = some row) : g.rowRun row = chainTake row := by
  cases row with
  | nil => rfl
  | cons c0 rest =>
      show (if c0.rank = "2" then c0 :: g.finalizeRun c0 12 else []) = chainTake (c0 :: rest)
      rw [chainTake_cons]
      by_cases hc : c0.rank = "2"
      · rw [if_pos hc, if_pos hc]
        have hlen : rest.length ≤ 12 := by
          have := hWF.rowLen (c0 :: rest) (List.get?_mem hr)
          simpa using this
        rw [finalizeRun_eq_chainFrom hWF hr rest 0 c0 12 rfl rfl hlen]
      · rw [if_neg hc, if_neg hc]

/-- Membership in the finalized set, characterized per row. -/
theorem finalized_iff {g : Game} (hWF : WF g) {x : Card} :
    x ∈ g.getFinalizedCards ↔ ∃ r row, g.rows.get? r = some row ∧ x ∈ chainTake row := by
  rw [mem_getFinalizedCards_iff]
  constructor
  · rintro ⟨row, hrow, hx⟩
    obtain ⟨r, hr⟩ := List.mem_iff_get?.mp hrow
    exact ⟨r, row, hr, (rowRun_eq_chainTake hWF hr) ▸ hx⟩
  · rintro ⟨r, row, hr, hx⟩
    exact ⟨row, List.get?_mem hr, (rowRun_eq_chainTake hWF hr) ▸ hx⟩

/-! ## Support lemmas for clearUnfinished -/

theorem prefix_get? {l1 l2 : List Card} (h : l1 <+: l2) {i : Nat} (hi : i < l1.length) :
    l2.get? i = l1.get? i := by
  obtain ⟨t, rfl⟩ := h
  rw [List.get?_eq_getElem?, List.get?_eq_getElem?, List.getElem?_append_left hi]

theorem findIdx_spec {α : Type} (p : α → Bool) :
    ∀ (l : List α) (m : Nat), m ≤ l.length →
      (∀ j x, j < m → l.get? j = some x → p x = false) →
      (∀ x, l.get? m = some x → p x = true) → l.findIdx p = m
  | [], m, hm, _, _ => by
      have : m = 0 := by simpa using hm
      subst this
      rfl
  | a :: as, 0, _, _, hit => by
      have := hit a rfl
      rw [List.findIdx_cons, this]
      rfl
  | a :: as, m + 1, hm, hlt, hit => by
      have ha : p a = false := hlt 0 a (Nat.succ_pos m) rfl
      rw [List.findIdx_cons, ha]
      show (List.findIdx p as) + 1 = m + 1
      rw [findIdx_spec p as m (by simpa using hm)
        (fun j x hj hx => hlt (j + 1) x (by omega) (by simpa using hx))
        (fun x hx => hit x (by simpa using hx))]

theorem chainTake_eq_take (row : List Card) :
    chainTake row = row.take (chainTake row).length :=
  List.prefix_iff_eq_take.mp (chainTake_isPrefix row)

/-- A card cannot lie in two distinct row entries of a well-formed game. -/
theorem WF.row_entry_unique {g : Game} (h : WF g) {r1 r2 : Nat} {row1 row2 : List Card}
    {c : Card} (h1 : g.rows.get? r1 = some row1) (h2 : g.rows.get? r2 = some row2)
    (hc1 : c ∈ row1) (hc2 : c ∈ row2) : r1 = r2 := by
  by_contra hne
  have hpw : g.rows.Pairwise List.Disjoint := (List.nodup_flatten.mp h.flattenNodup).2
  rw [List.pairwise_iff_get] at hpw
  obtain ⟨hr1, hg1⟩ := List.get?_eq_some.mp h1
  obtain ⟨hr2, hg2⟩ := List.get?_eq_some.mp h2
  rcases Nat.lt_or_ge r1 r2 with hlt | hge
  · have := hpw ⟨r1, hr1⟩ ⟨r2, hr2⟩ hlt
    rw [hg1, hg2] at this
    exact this hc1 hc2
  · have hlt2 : r2 < r1 := by omega
    have := hpw ⟨r2, hr2⟩ ⟨r1, hr1⟩ hlt2
    rw [hg1, hg2] at this
    exact this hc2 hc1

theorem ranked_deck_not_blank : ∀ x ∈ Deck.CARDS, x.rank ∈ Card.RANKS → ¬x.isBlank := by
  decide

theorem two_not_blank : ∀ x ∈ Deck.CARDS, x.rank = "2" → ¬x.isBlank := by decide

theorem blanks_isBlank : ∀ b ∈ Deck.getBlanks, b.isBlank := by decide

theorem cardsByKey_spec {r s : String} {x : Card} (h : Deck.cardsByKey r s = some x) :
    x ∈ Deck.CARDS ∧ x.rank = r ∧ x.suit = s := by
  unfold Deck.cardsByKey at h
  have hmem := List.mem_of_find?_eq_some h
  have hp := List.find?_some h
  simp only [Bool.and_eq_true, decide_eq_true_eq] at hp
  exact ⟨hmem, hp.1, hp.2⟩

/-- Any `nextRank` value is a non-blank deck card. -/
theorem nextRank_not_blank {c x : Card} (h : c.nextRank = some x) :
    ¬x.isBlank ∧ x ∈ Deck.CARDS := by
  unfold Card.nextRank at h
  have key : ∃ k, (Card.RANKS.get? k).bind (fun r => Deck.cardsByKey r c.suit) = some x := by
    cases hidx : Card.RANKS.findIdx? (fun r => r = c.rank) with
    | some i => rw [hidx] at h; exact ⟨i + 1, h⟩
    | none => rw [hidx] at h; exact ⟨0, h⟩
  obtain ⟨k, hk⟩ := key
  obtain ⟨r, hr, hbk⟩ := Option.bind_eq_some.mp hk
  obtain ⟨hxm, hxr, _⟩ := cardsByKey_spec hbk
  have hrm : r ∈ Card.RANKS := List.get?_mem hr
  exact ⟨ranked_deck_not_blank x hxm (hxr ▸ hrm), hxm⟩

/-- No finalized card is blank (heads have rank 2 and chain members are
`nextRank` values). -/
theorem finalized_not_blank {g : Game} (hWF : WF g) {x : Card}
    (hx : x ∈ g.getFinalizedCards) : ¬x.isBlank := by
  obtain ⟨r, row, hr, hct⟩ := (finalized_iff hWF).mp hx
  cases hctl : chainTake row with
  | nil => rw [hctl] at hct; simp at hct
  | cons c0 rest =>
      rw [hctl] at hct
      obtain ⟨h0, hrank2, hrest⟩ := chainTake_head hctl
      rcases List.mem_cons.mp hct with rfl | hmem
      · have hxm : x ∈ Deck.CARDS :=
          hWF.rowsSub row (List.get?_mem hr) x (List.get?_mem h0)
        exact two_not_blank x hxm hrank2
      · rw [hrest] at hmem
        obtain ⟨w, hw⟩ := mem_chainFrom_next c0 hmem
        exact (nextRank_not_blank hw).1

theorem length_foldl_setNone : ∀ (l : List Card) (p : PosMap),
    (l.foldl (fun q x => q.setPos x none) p).length = p.length
  | [], _ => rfl
  | x :: xs, p => by
      rw [List.foldl_cons, length_foldl_setNone xs (p.setPos x none), length_setPos]

theorem posOf_foldl_setNone : ∀ (l : List Card), (∀ x ∈ l, x ∈ Deck.CARDS) →
    ∀ (p : PosMap), p.length = 52 → ∀ (c : Card), c ∈ Deck.CARDS →
      (l.foldl (fun q x => q.setPos x none) p).posOf c =
        if c ∈ l then none else p.posOf c
  | [], _, p, _, c, _ => by simp
  | x :: xs, hl, p, hp, c, hc => by
      rw [List.foldl_cons]
      have hp' : (p.setPos x none).length = 52 := by rw [length_setPos]; exact hp
      rw [posOf_foldl_setNone xs (fun y hy => hl y (List.mem_cons_of_mem x hy)) _ hp' c hc]
      by_cases hcx : c = x
      · subst hcx
        simp only [List.mem_cons, true_or, if_pos]
        by_cases hmem : c ∈ xs
        · rw [if_pos hmem]
        · rw [if_neg hmem, posOf_setPos_self hp hc]
      · have hxm : x ∈ Deck.CARDS := hl x (List.mem_cons_self x xs)
        have hidx : Deck.cardIndex x ≠ Deck.cardIndex c :=
          fun he => hcx (cardIndex_inj hc hxm he.symm)
        rw [posOf_setPos_ne hidx]
        by_cases hmem : c ∈ xs
        · rw [if_pos hmem, if_pos (List.mem_cons_of_mem x hmem)]
        · rw [if_neg hmem, if_neg (by simp [hcx, hmem])]

theorem flatten_split_perm (f h : List Card → List Card) :
    ∀ (rows : List (List Card)), (∀ row ∈ rows, f row ++ h row = row) →
      ((rows.map f).flatten ++ (rows.map h).flatten).Perm rows.flatten
  | [], _ => by simp
  | row :: rs, hfh => by
      simp only [List.map_cons, List.flatten_cons]
      have step1 : (f row ++ (rs.map f).flatten ++ (h row ++ (rs.map h).flatten)).Perm
          (f row ++ (h row ++ ((rs.map f).flatten ++ (rs.map h).flatten))) := by
        rw [List.append_assoc]
        exact List.Perm.append_left (f row)
          (List.perm_append_comm_assoc _ _ _)
      refine step1.trans ?_
      rw [← List.append_assoc, hfh row (List.mem_cons_self row rs)]
      exact List.Perm.append_left row
        (flatten_split_perm f h rs (fun r hr => hfh r (List.mem_cons_of_mem row hr)))

/-- Under well-formedness, `clearRow` of row `r` cuts exactly at the end of
that row's chain. -/
theorem WF.clearRow_eq {g : Game} (hWF : WF g) {r : Nat} {row : List Card}
    (hr : g.rows.get? r = some row) :
    Game.clearRow g.getFinalizedCards row =
      (chainTake row, row.drop (chainTake row).length) := by
  unfold Game.clearRow
  have hk : row.findIdx (fun c => ¬ g.getFinalizedCards.contains c) =
      (chainTake row).length := by
    refine findIdx_spec _ row (chainTake row).length
      ((chainTake_isPrefix row).length_le) ?_ ?_
    · intro j x hj hx
      have hxct : x ∈ chainTake row := by
        have := prefix_get? (chainTake_isPrefix row) hj
        rw [hx] at this
        exact List.get?_mem this.symm
      have hxF : x ∈ g.getFinalizedCards :=
        (finalized_iff hWF).mpr ⟨r, row, hr, hxct⟩
      simp [List.elem_iff, hxF]
    · intro x hx
      have hxF : x ∉ g.getFinalizedCards := by
        intro hmem
        obtain ⟨r', row', hr', hct'⟩ := (finalized_iff hWF).mp hmem
        have hxrow : x ∈ row := List.get?_mem hx
        have hxrow' : x ∈ row' := (chainTake_isPrefix row').subset hct'
        have hrr : r' = r := hWF.row_entry_unique hr' hr hxrow' hxrow
        subst hrr
        rw [hr] at hr'
        injection hr' with hrow'
        subst hrow'
        rw [chainTake_eq_take row] at hct'
        obtain ⟨j, hj⟩ := List.mem_iff_get?.mp hct'
        rw [List.get?_eq_getElem?, List.getElem?_take] at hj
        by_cases hjm : j < (chainTake row).length
        · rw [if_pos hjm] at hj
          have hji : j = (chainTake row).length := by
            refine List.get?_inj ?_ (hWF.rowNodup row (List.get?_mem hr)) ?_
            · have := List.get?_eq_some.mp hx
              obtain ⟨hlt, -⟩ := this
              have : j < row.length := by
                rw [← List.get?_eq_getElem?] at hj
                obtain ⟨h2, -⟩ := List.get?_eq_some.mp hj
                exact h2
              exact this
            · rw [← List.get?_eq_getElem?] at hj
              rw [hj, hx]
          omega
        · rw [if_neg hjm] at hj
          simp at hj
      simp [List.elem_iff, hxF]
  rw [hk]
  show (row.take (chainTake row).length, row.drop (chainTake row).length) = _
  rw [← chainTake_eq_take]

/-- The full effect of `clearUnfinished` on a well-formed game. -/
theorem clearUnfinished_eq {g : Game} (hWF : WF g) :
    g.clearUnfinished =
      { stock := g.stock ++ (g.rows.map (fun row => row.drop (chainTake row).length)).flatten
        rows := g.rows.map chainTake
        pos := (g.stock ++
            (g.rows.map (fun row => row.drop (chainTake row).length)).flatten).foldl
          (fun p c => p.setPos c none) g.pos
        deals := g.deals } := by
  unfold Game.clearUnfinished
  have hfst : (g.rows.map (Game.clearRow g.getFinalizedCards)).map Prod.fst =
      g.rows.map chainTake := by
    rw [List.map_map]
    refine List.map_congr_left ?_
    intro row hrow
    obtain ⟨r, hr⟩ := List.mem_iff_get?.mp hrow
    show (Game.clearRow g.getFinalizedCards row).fst = chainTake row
    rw [hWF.clearRow_eq hr]
  have hsnd : (g.rows.map (Game.clearRow g.getFinalizedCards)).map Prod.snd =
      g.rows.map (fun row => row.drop (chainTake row).length) := by
    rw [List.map_map]
    refine List.map_congr_left ?_
    intro row hrow
    obtain ⟨r, hr⟩ := List.mem_iff_get?.mp hrow
    show (Game.clearRow g.getFinalizedCards row).snd = row.drop (chainTake row).length
    rw [hWF.clearRow_eq hr]
  show Game.mk
      (g.stock ++ ((g.rows.map (Game.clearRow g.getFinalizedCards)).map Prod.snd).flatten)
      ((g.rows.map (Game.clearRow g.getFinalizedCards)).map Prod.fst)
      (List.foldl (fun p c => p.setPos c none) g.pos
        (g.stock ++ ((g.rows.map (Game.clearRow g.getFinalizedCards)).map Prod.snd).flatten))
      g.deals = _
  rw [hfst, hsnd]

/-- The recycled tails of all rows. -/
def Game.dropsOf (g : Game) : List Card :=
  (g.rows.map (fun row => row.drop (chainTake row).length)).flatten

theorem clear_stock_eq {g : Game} (hWF : WF g) :
    g.clearUnfinished.stock = g.stock ++ g.dropsOf := by
  rw [clearUnfinished_eq hWF]
  rfl

theorem clear_rows_eq {g : Game} (hWF : WF g) :
    g.clearUnfinished.rows = g.rows.map chainTake := by
  rw [clearUnfinished_eq hWF]

theorem clear_deals_eq {g : Game} (hWF : WF g) :
    g.clearUnfinished.deals = g.deals := by
  rw [clearUnfinished_eq hWF]

theorem clear_stock_sub {g : Game} (hWF : WF g) :
    ∀ c ∈ g.stock ++ g.dropsOf, c ∈ Deck.CARDS := by
  intro c hc
  rcases List.mem_append.mp hc with hs | hd
  · exact hWF.stockSub c hs
  · obtain ⟨d, hd1, hd2⟩ := List.mem_flatten.mp hd
    obtain ⟨row, hrow, hmap⟩ := List.mem_map.mp hd1
    exact hWF.rowsSub row hrow c (List.mem_of_mem_drop (hmap ▸ hd2))

theorem clear_posOf {g : Game} (hWF : WF g) {c : Card} (hc : c ∈ Deck.CARDS) :
    g.clearUnfinished.posOf c =
      if c ∈ g.stock ++ g.dropsOf then none else g.posOf c := by
  rw [clearUnfinished_eq hWF]
  show (List.foldl (fun p c => p.setPos c none) g.pos (g.stock ++ g.dropsOf)).posOf c = _
  exact posOf_foldl_setNone _ (clear_stock_sub hWF) g.pos hWF.posLen c hc

/-- After clearing, a card kept in a row is not in the new stock. -/
theorem clear_kept_not_stock {g : Game} (hWF : WF g) {r : Nat} {row : List Card} {c : Card}
    (hr : g.rows.get? r = some row) (hct : c ∈ chainTake row) :
    c ∉ g.stock ++ g.dropsOf := by
  intro hmem
  have hcrow : c ∈ row := (chainTake_isPrefix row).subset hct
  rcases List.mem_append.mp hmem with hs | hd
  · exact hWF.stockDisjoint hs
      (List.mem_flatten.mpr ⟨row, List.get?_mem hr, hcrow⟩)
  · obtain ⟨d, hd1, hd2⟩ := List.mem_flatten.mp hd
    obtain ⟨row'', hrow'', hmap⟩ := List.mem_map.mp hd1
    obtain ⟨r'', hr''⟩ := List.mem_iff_get?.mp hrow''
    have hcrow'' : c ∈ row'' := List.mem_of_mem_drop (hmap ▸ hd2)
    have : r'' = r := hWF.row_entry_unique hr'' hr hcrow'' hcrow
    subst this
    rw [hr] at hr''
    injection hr'' with he
    subst he
    have hnd : (row.take (chainTake row).length ++ row.drop (chainTake row).length).Nodup := by
      rw [List.take_append_drop]
      exact hWF.rowNodup row (List.get?_mem hr)
    have hdisj := List.disjoint_of_nodup_append hnd
    rw [← chainTake_eq_take] at hdisj
    exact hdisj hct (hmap ▸ hd2)

/-- After clearing, every blank of the deck is in the stock (a blank is never
finalized). -/
theorem clear_blank_in_stock {g : Game} (hWF : WF g) {b : Card} (hb : b ∈ Deck.getBlanks) :
    b ∈ g.stock ++ g.dropsOf := by
  have hbm : b ∈ Deck.CARDS := blank_mem_deck b hb
  have hmem : b ∈ g.stock ++ g.rows.flatten := hWF.perm.mem_iff.mpr hbm
  rcases List.mem_append.mp hmem with hs | hf
  · exact List.mem_append_left _ hs
  · obtain ⟨row, hrow, hbrow⟩ := List.mem_flatten.mp hf
    obtain ⟨r, hr⟩ := List.mem_iff_get?.mp hrow
    have hsplit : b ∈ row.take (chainTake row).length ++ row.drop (chainTake row).length := by
      rw [List.take_append_drop]
      exact hbrow
    rcases List.mem_append.mp hsplit with ht | hd
    · exfalso
      rw [← chainTake_eq_take] at ht
      exact finalized_not_blank hWF ((finalized_iff hWF).mpr ⟨r, row, hr, ht⟩)
        (blanks_isBlank b hb)
    · refine List.mem_append_right _ (List.mem_flatten.mpr ?_)
      exact ⟨row.drop (chainTake row).length,
        List.mem_map.mpr ⟨row, hrow, rfl⟩, hd⟩

/-- Every blank has a null position after `clearUnfinished`. -/
theorem clear_blanksNull {g : Game} (hWF : WF g) :
    ∀ b ∈ Deck.getBlanks, g.clearUnfinished.posOf b = none := by
  intro b hb
  rw [clear_posOf hWF (blank_mem_deck b hb), if_pos (clear_blank_in_stock hWF hb)]

/-- `clearUnfinished` preserves well-formedness. -/
theorem WF.clear {g : Game} (hWF : WF g) : WF g.clearUnfinished := by
  refine ⟨?_, ?_, ?_, ?_, ?_, ?_, ?_⟩
  · rw [clear_rows_eq hWF, List.length_map]
    exact hWF.rowsLen
  · rw [clear_rows_eq hWF]
    intro row' hrow'
    obtain ⟨row, hrow, hmap⟩ := List.mem_map.mp hrow'
    calc row'.length ≤ row.length := by
          rw [← hmap]; exact (chainTake_isPrefix row).length_le
      _ ≤ 13 := hWF.rowLen row hrow
  · rw [clearUnfinished_eq hWF]
    show (List.foldl (fun p c => p.setPos c none) g.pos (g.stock ++ g.dropsOf)).length = 52
    rw [length_foldl_setNone]
    exact hWF.posLen
  · rw [clear_stock_eq hWF, clear_rows_eq hWF]
    have hsplit : ∀ row ∈ g.rows,
        chainTake row ++ row.drop (chainTake row).length = row := by
      intro row _
      nth_rewrite 1 [chainTake_eq_take row]
      exact List.take_append_drop _ row
    have hperm1 := flatten_split_perm chainTake
      (fun row => row.drop (chainTake row).length) g.rows hsplit
    have step : (g.stock ++ g.dropsOf ++ (g.rows.map chainTake).flatten).Perm
        (g.stock ++ g.rows.flatten) := by
      rw [List.append_assoc]
      refine List.Perm.append_left g.stock ?_
      refine (List.perm_append_comm).trans ?_
      exact hperm1
    exact step.trans hWF.perm
  · intro c hc
    rw [clear_stock_eq hWF] at hc
    rw [clear_posOf hWF (clear_stock_sub hWF c hc), if_pos hc]
  · intro r i row' c hr' hi'
    rw [clear_rows_eq hWF] at hr'
    rw [List.get?_eq_getElem?, List.getElem?_map] at hr'
    obtain ⟨row, hrowg, hmap⟩ := Option.map_eq_some.mp hr'
    have hr : g.rows.get? r = some row := by rw [List.get?_eq_getElem?, hrowg]
    subst hmap
    have hct : c ∈ chainTake row := List.get?_mem hi'
    have hi : row.get? i = some c := by
      obtain ⟨hlt, -⟩ := List.get?_eq_some.mp hi'
      rw [prefix_get? (chainTake_isPrefix row) hlt]
      exact hi'
    have hold := hWF.gridPos r i row c hr hi
    have hcd : c ∈ Deck.CARDS := hWF.rowsSub row (List.get?_mem hr) c (List.get?_mem hi)
    rw [clear_posOf hWF hcd, if_neg (clear_kept_not_stock hWF hr hct)]
    exact hold
  · exact Or.inr (clear_blanksNull hWF)

theorem foldl_setNone_id : ∀ (l : List Card), (∀ c ∈ l, c ∈ Deck.CARDS) →
    ∀ (p : PosMap), p.length = 52 → (∀ c ∈ l, p.posOf c = none) →
      l.foldl (fun q x => q.setPos x none) p = p
  | [], _, p, _, _ => rfl
  | x :: xs, hl, p, hp, hnull => by
      rw [List.foldl_cons]
      have hxm : x ∈ Deck.CARDS := hl x (List.mem_cons_self x xs)
      have hset : p.setPos x none = p := by
        unfold PosMap.setPos
        have hlt : Deck.cardIndex x < p.length := by rw [hp]; exact cardIndex_lt x hxm
        have hentry : p.get? (Deck.cardIndex x) = some none := by
          have h0 := hnull x (List.mem_cons_self x xs)
          unfold PosMap.posOf at h0
          rw [List.getD_eq_getElem?_getD] at h0
          cases hg : p[Deck.cardIndex x]? with
          | none =>
              exfalso
              rw [List.getElem?_eq_none_iff] at hg
              omega
          | some v =>
              rw [hg] at h0
              simp only [Option.getD_some] at h0
              rw [List.get?_eq_getElem?, hg, h0]
        exact set_get_self p _ none hentry
      rw [hset]
      exact foldl_setNone_id xs (fun c hc => hl c (List.mem_cons_of_mem x hc)) p hp
        (fun c hc => hnull c (List.mem_cons_of_mem x hc))

/-- Clearing twice is the same as clearing once (on well-formed games). -/
theorem clear_clear {g : Game} (hWF : WF g) :
    g.clearUnfinished.clearUnfinished = g.clearUnfinished := by
  have hWF' : WF g.clearUnfinished := hWF.clear
  have hrows2 : g.clearUnfinished.rows.map chainTake = g.clearUnfinished.rows := by
    rw [clear_rows_eq hWF, List.map_map]
    exact List.map_congr_left (fun row _ => chainTake_chainTake row)
  have hdrops2 : (g.clearUnfinished.rows.map
      (fun row => row.drop (chainTake row).length)).flatten = [] := by
    rw [clear_rows_eq hWF, List.map_map]
    rw [List.flatten_eq_nil_iff]
    intro l hl
    obtain ⟨row, hrow, hmap⟩ := List.mem_map.mp hl
    show l = []
    rw [← hmap]
    show (chainTake row).drop (chainTake (chainTake row)).length = []
    rw [chainTake_chainTake row]
    exact List.drop_length _
  rw [clearUnfinished_eq hWF']
  rw [hrows2, hdrops2, List.append_nil]
  rw [foldl_setNone_id g.clearUnfinished.stock hWF'.stockSub g.clearUnfinished.pos
    hWF'.posLen hWF'.stockPos]

/-! ## Characterizing the movable set -/

/-- The contribution of one blank to `getMovableCards`, as a list. -/
def Game.blankContribList (g : Game) (blank : Card) : List Card :=
  match g.posOf blank with
  | none => []
  | some (_, col) =>
      if col = 0 then Deck.getCardsByRank "2"
      else
        match g.cardToLeft blank with
        | some left =>
            if ¬left.isBlank ∧ left.rank ≠ "K" then
              match left.nextRank with
              | some n => [n]
              | none => []
            else []
        | none => []

theorem getMovableCards_eq_foldl (g : Game) :
    g.getMovableCards =
      Deck.getBlanks.foldl (fun m b => (g.blankContribList b).foldl insertSet m) [] := by
  unfold Game.getMovableCards
  refine foldl_ext _ _ ?_ Deck.getBlanks []
  intro m b
  unfold Game.blankContribList
  cases hpos : g.posOf b with
  | none => rfl
  | some rc =>
      obtain ⟨r, col⟩ := rc
      by_cases hcol : col = 0
      · simp only [if_pos hcol]
      · simp only [if_neg hcol]
        cases hleft : g.cardToLeft b with
        | none => rfl
        | some left =>
            by_cases hcond : ¬left.isBlank ∧ left.rank ≠ "K"
            · simp only [if_pos hcond]
              cases hnx : left.nextRank with
              | none => rfl
              | some n => rfl
            · simp only [if_neg hcond]
              rfl

theorem mem_getMovableCards_iff {g : Game} {x : Card} :
    x ∈ g.getMovableCards ↔ ∃ b ∈ Deck.getBlanks, x ∈ g.blankContribList b := by
  rw [getMovableCards_eq_foldl, mem_foldl_contrib]
  simp

theorem getMovableCards_nodup (g : Game) : g.getMovableCards.Nodup := by
  rw [getMovableCards_eq_foldl]
  have : ∀ (bs : List Card) (acc : List Card), acc.Nodup →
      (bs.foldl (fun m b => (g.blankContribList b).foldl insertSet m) acc).Nodup := by
    intro bs
    induction bs with
    | nil => intro acc h; simpa
    | cons b bs' ih => intro acc h; exact ih _ (nodup_foldl_insertSet h)
  exact this Deck.getBlanks [] List.nodup_nil

theorem foldl_contrib_nil {α : Type} (contrib : α → List Card) :
    ∀ (l : List α) (acc : List Card), (∀ a ∈ l, contrib a = []) →
      l.foldl (fun m a => (contrib a).foldl insertSet m) acc = acc
  | [], _, _ => rfl
  | a :: as, acc, h => by
      rw [List.foldl_cons, h a (List.mem_cons_self a as)]
      exact foldl_contrib_nil contrib as acc (fun x hx => h x (List.mem_cons_of_mem a hx))

/-- A blank with a null position contributes nothing. -/
theorem blankContribList_null {g : Game} {b : Card} (h : g.posOf b = none) :
    g.blankContribList b = [] := by
  unfold Game.blankContribList
  rw [h]

/-- If every blank is unpositioned, nothing is movable. -/
theorem getMovableCards_empty {g : Game}
    (h : ∀ b ∈ Deck.getBlanks, g.posOf b = none) : g.getMovableCards = [] := by
  rw [getMovableCards_eq_foldl]
  exact foldl_contrib_nil _ Deck.getBlanks []
    (fun b hb => blankContribList_null (h b hb))

/-- After a clear, dealing is unblocked: nothing is movable. -/
theorem clear_movable_empty {g : Game} (hWF : WF g) :
    g.clearUnfinished.getMovableCards = [] :=
  getMovableCards_empty (clear_blanksNull hWF)

/-! ## The deal: filling rows from the shuffled stock -/

theorem fillRowAux_zero (ri : Nat) (stock row : List Card) (pos : PosMap) :
    Game.fillRowAux ri 0 stock row pos =
      if row.length < 13 then none else some (stock, row, pos) := rfl

theorem fillRowAux_succ (ri f : Nat) (stock row : List Card) (pos : PosMap) :
    Game.fillRowAux ri (f + 1) stock row pos =
      if row.length < 13 then
        match stock with
        | [] => none
        | c :: rest =>
            Game.fillRowAux ri f rest (row ++ [c]) (pos.setPos c (some (ri, row.length)))
      else some (stock, row, pos) := rfl

/-- Positions of two distinct maps agree outside the deck; used to transfer
`posOf` equalities to cards outside `Deck.CARDS`. -/
theorem posOf_eq_of_not_deck {p q : PosMap} (hp : p.length = 52) (hq : q.length = 52)
    {c : Card} (hc : c ∉ Deck.CARDS) : p.posOf c = q.posOf c := by
  rw [posOf_not_mem_deck hp hc, posOf_not_mem_deck hq hc]

theorem fillRowAux_spec (ri : Nat) :
    ∀ (n fuel : Nat) (stock row : List Card) (pos : PosMap),
      n = 13 - row.length → n ≤ fuel → n ≤ stock.length →
      pos.length = 52 → (∀ x ∈ stock, x ∈ Deck.CARDS) → stock.Nodup →
      ∃ pos', Game.fillRowAux ri fuel stock row pos =
          some (stock.drop n, row ++ stock.take n, pos') ∧
        pos'.length = 52 ∧
        (∀ c : Card, c ∉ stock.take n → pos'.posOf c = pos.posOf c) ∧
        (∀ j : Nat, j < n → ∀ c : Card, stock.get? j = some c →
          pos'.posOf c = some (ri, row.length + j)) := by
  intro n
  induction n with
  | zero =>
      intro fuel stock row pos hn _ _ hp _ _
      have hlen : ¬row.length < 13 := by omega
      refine ⟨pos, ?_, hp, ?_, ?_⟩
      · cases fuel with
        | zero => rw [fillRowAux_zero, if_neg hlen]; simp
        | succ f => rw [fillRowAux_succ, if_neg hlen]; simp
      · intro c _; rfl
      · intro j hj; omega
  | succ m ih =>
      intro fuel stock row pos hn hfuel hstock hp hsub hnd
      have hlen : row.length < 13 := by omega
      cases fuel with
      | zero => omega
      | succ f =>
          cases stock with
          | nil => simp at hstock
          | cons c rest =>
              rw [fillRowAux_succ, if_pos hlen]
              have hcm : c ∈ Deck.CARDS := hsub c (List.mem_cons_self c rest)
              have hp1 : (pos.setPos c (some (ri, row.length))).length = 52 := by
                rw [length_setPos]; exact hp
              have hrest : ∀ x ∈ rest, x ∈ Deck.CARDS :=
                fun x hx => hsub x (List.mem_cons_of_mem c hx)
              have hndrest : rest.Nodup := (List.nodup_cons.mp hnd).2
              have hcnotrest : c ∉ rest := (List.nodup_cons.mp hnd).1
              obtain ⟨pos', heq, hlen', huntouched, hset⟩ :=
                ih f rest (row ++ [c]) (pos.setPos c (some (ri, row.length)))
                  (by simp; omega) (by omega) (by simpa using hstock) hp1 hrest hndrest
              refine ⟨pos', ?_, hlen', ?_, ?_⟩
              · show Game.fillRowAux ri f rest (row ++ [c])
                    (pos.setPos c (some (ri, row.length))) = _
                rw [heq]
                have h1 : (c :: rest).drop (m + 1) = rest.drop m := rfl
                have h2 : (c :: rest).take (m + 1) = c :: rest.take m := rfl
                rw [h1, h2]
                have h3 : row ++ [c] ++ rest.take m = row ++ (c :: rest.take m) := by
                  rw [List.append_assoc]
                  rfl
                rw [h3]
              · intro c' hc'
                have hc'ne : c' ≠ c := by
                  intro he
                  subst he
                  exact hc' (List.mem_cons_self c' _)
                have hc'rest : c' ∉ rest.take m := by
                  intro hmem
                  exact hc' (List.mem_cons_of_mem c hmem)
                rw [huntouched c' hc'rest]
                by_cases hc'd : c' ∈ Deck.CARDS
                · exact posOf_setPos_ne
                    (fun he => hc'ne (cardIndex_inj hcm hc'd he).symm) _
                · exact posOf_eq_of_not_deck hp1 hp hc'd
              · intro j hj c' hc'
                cases j with
                | zero =>
                    simp only [List.get?_cons_zero, Option.some.injEq] at hc'
                    rw [← hc']
                    have hcnot : c ∉ rest.take m :=
                      fun hmem => hcnotrest (List.mem_of_mem_take hmem)
                    rw [huntouched c hcnot, posOf_setPos_self hp hcm]
                    simp
                | succ j' =>
                    simp only [List.get?_cons_succ] at hc'
                    have hres := hset j' (by omega) c' hc'
                    rw [hres]
                    have harith : (row ++ [c]).length + j' = row.length + (j' + 1) := by
                      rw [List.length_append]
                      simp
                      omega
                    rw [harith]

theorem fillRow_eq (ri : Nat) (stock row : List Card) (pos : PosMap) :
    Game.fillRow ri stock row pos = Game.fillRowAux ri 13 stock row pos := rfl

theorem fillRows_nil (ri : Nat) (stock : List Card) (pos : PosMap) :
    Game.fillRows ri [] stock pos = some ([], stock, pos) := rfl

theorem fillRows_cons (ri : Nat) (row : List Card) (rest : List (List Card))
    (stock : List Card) (pos : PosMap) :
    Game.fillRows ri (row :: rest) stock pos =
      (Game.fillRow ri stock row pos).bind fun srp =>
        (Game.fillRows (ri + 1) rest srp.1 srp.2.2).bind fun rsp =>
          some (srp.2.1 :: rsp.1, rsp.2.1, rsp.2.2) := rfl

theorem fillRows_spec :
    ∀ (rows : List (List Card)) (ri : Nat) (stock : List Card) (pos : PosMap),
      (∀ row ∈ rows, row.length ≤ 13) →
      (rows.map (fun row => 13 - row.length)).sum ≤ stock.length →
      pos.length = 52 → (∀ x ∈ stock, x ∈ Deck.CARDS) → stock.Nodup →
      (∀ x ∈ stock, x ∉ rows.flatten) →
      (∀ j row, rows.get? j = some row → ∀ i c, row.get? i = some c →
        pos.posOf c = some (ri + j, i)) →
      ∃ rows' pos',
        Game.fillRows ri rows stock pos =
          some (rows', stock.drop ((rows.map (fun row => 13 - row.length)).sum), pos') ∧
        rows'.length = rows.length ∧
        (∀ row' ∈ rows', row'.length = 13) ∧
        pos'.length = 52 ∧
        (∀ c : Card, c ∉ stock.take ((rows.map (fun row => 13 - row.length)).sum) →
          pos'.posOf c = pos.posOf c) ∧
        (∀ j row', rows'.get? j = some row' → ∀ i c, row'.get? i = some c →
          pos'.posOf c = some (ri + j, i)) ∧
        rows'.flatten.Perm
          (rows.flatten ++ stock.take ((rows.map (fun row => 13 - row.length)).sum)) := by
  intro rows
  induction rows with
  | nil =>
      intro ri stock pos _ _ hp _ _ _ _
      refine ⟨[], pos, ?_, rfl, ?_, hp, ?_, ?_, ?_⟩
      · rw [fillRows_nil]
        simp
      · intro row' h; simp at h
      · intro c _; rfl
      · intro j row' h; simp at h
      · simp
  | cons row rest ih =>
      intro ri stock pos hRowLen hSum hp hSub hNd hDisj hGrid
      have hr0 : row.length ≤ 13 := hRowLen row (List.mem_cons_self row rest)
      have hSumCons : ((row :: rest).map (fun row => 13 - row.length)).sum =
          (13 - row.length) + (rest.map (fun row => 13 - row.length)).sum := by
        simp
      obtain ⟨pos1, heq1, hp1, hun1, hset1⟩ :=
        fillRowAux_spec ri (13 - row.length) 13 stock row pos rfl (by omega)
          (by rw [hSumCons] at hSum; omega) hp hSub hNd
      have hrow1len : (row ++ stock.take (13 - row.length)).length = 13 := by
        rw [List.length_append, List.length_take]
        have := hSum
        rw [hSumCons] at this
        omega
      have htakemem : ∀ c ∈ stock.take (13 - row.length), c ∈ stock :=
        fun c hc => List.mem_of_mem_take hc
      have hDisjFlat : ∀ x ∈ stock, x ∉ row ∧ x ∉ rest.flatten := by
        intro x hx
        have := hDisj x hx
        rw [List.flatten_cons] at this
        constructor
        · intro hmem; exact this (List.mem_append_left _ hmem)
        · intro hmem; exact this (List.mem_append_right _ hmem)
      obtain ⟨rows2, pos', heq2, hlen2, hall2, hp', hun2, hgrid2, hperm2⟩ :=
        ih (ri + 1) (stock.drop (13 - row.length)) pos1
          (fun r hr => hRowLen r (List.mem_cons_of_mem row hr))
          (by
            rw [List.length_drop]
            rw [hSumCons] at hSum
            omega)
          hp1
          (fun x hx => hSub x (List.mem_of_mem_drop hx))
          (hNd.sublist (List.drop_sublist _ _))
          (fun x hx => (hDisjFlat x (List.mem_of_mem_drop hx)).2)
          (by
            intro j r hjr i c hic
            have hold := hGrid (j + 1) r (by simpa using hjr) i c hic
            have hc : c ∈ rest.flatten := by
              refine List.mem_flatten.mpr ⟨r, List.get?_mem hjr, List.get?_mem hic⟩
            have hcnotstock : c ∉ stock := fun hmem => (hDisjFlat c hmem).2 hc
            have hcnottake : c ∉ stock.take (13 - row.length) :=
              fun hmem => hcnotstock (htakemem c hmem)
            rw [hun1 c hcnottake, hold]
            have : ri + (j + 1) = ri + 1 + j := by omega
            rw [this])
      refine ⟨(row ++ stock.take (13 - row.length)) :: rows2, pos', ?_, ?_, ?_, hp', ?_, ?_, ?_⟩
      · rw [fillRows_cons, fillRow_eq, heq1]
        show (Game.fillRows (ri + 1) rest (stock.drop (13 - row.length)) pos1).bind _ = _
        rw [heq2]
        show some _ = _
        rw [hSumCons]
        rw [← List.drop_drop]
      · simp [hlen2]
      · intro row' hrow'
        rcases List.mem_cons.mp hrow' with rfl | hmem
        · exact hrow1len
        · exact hall2 row' hmem
      · intro c hc
        rw [hSumCons] at hc
        rw [List.take_add] at hc
        have hc1 : c ∉ stock.take (13 - row.length) :=
          fun hmem => hc (List.mem_append_left _ hmem)
        have hc2 : c ∉ (stock.drop (13 - row.length)).take
            ((rest.map (fun row => 13 - row.length)).sum) :=
          fun hmem => hc (List.mem_append_right _ hmem)
        rw [hun2 c hc2, hun1 c hc1]
      · intro j row' hjr i c hic
        cases j with
        | zero =>
            simp only [List.get?_cons_zero, Option.some.injEq] at hjr
            subst hjr
            rw [List.get?_eq_getElem?] at hic
            by_cases hi : i < row.length
            · rw [List.getElem?_append_left hi] at hic
              have hrowi : row.get? i = some c := by
                rw [List.get?_eq_getElem?]; exact hic
              have hold := hGrid 0 row rfl i c hrowi
              have hcrow : c ∈ row := List.get?_mem hrowi
              have hcnotstock : c ∉ stock := fun hmem => (hDisjFlat c hmem).1 hcrow
              have hcnottake : c ∉ stock.take (13 - row.length) :=
                fun hmem => hcnotstock (htakemem c hmem)
              have hcnottake2 : c ∉ (stock.drop (13 - row.length)).take
                  ((rest.map (fun row => 13 - row.length)).sum) := by
                intro hmem
                exact hcnotstock (List.mem_of_mem_drop (List.mem_of_mem_take hmem))
              rw [hun2 c hcnottake2, hun1 c hcnottake, hold]
            · rw [List.getElem?_append_right (by omega)] at hic
              have htakei : (stock.take (13 - row.length)).get? (i - row.length) = some c := by
                rw [List.get?_eq_getElem?]; exact hic
              have hj0 : i - row.length < 13 - row.length := by
                obtain ⟨hlt, -⟩ := List.get?_eq_some.mp htakei
                rw [List.length_take] at hlt
                omega
              have hstockj : stock.get? (i - row.length) = some c := by
                rw [List.get?_eq_getElem?] at htakei ⊢
                rw [List.getElem?_take] at htakei
                rw [if_pos hj0] at htakei
                exact htakei
              have hpos1 := hset1 (i - row.length) hj0 c hstockj
              have hctake : c ∈ stock.take (13 - row.length) := List.get?_mem htakei
              have hcnotdrop : c ∉ stock.drop (13 - row.length) := by
                intro hmem
                exact (List.disjoint_of_nodup_append
                  (by rw [List.take_append_drop]; exact hNd)) hctake hmem
              have hcnottake2 : c ∉ (stock.drop (13 - row.length)).take
                  ((rest.map (fun row => 13 - row.length)).sum) :=
                fun hmem => hcnotdrop (List.mem_of_mem_take hmem)
              rw [hun2 c hcnottake2, hpos1]
              have : row.length + (i - row.length) = i := by omega
              rw [this]
              simp
        | succ j' =>
            simp only [List.get?_cons_succ] at hjr
            have := hgrid2 j' row' hjr i c hic
            rw [this]
            have harith : ri + 1 + j' = ri + (j' + 1) := by omega
            rw [harith]
      · rw [List.flatten_cons, List.flatten_cons, hSumCons, List.take_add]
        have step1 : ((row ++ stock.take (13 - row.length)) ++ rows2.flatten).Perm
            ((row ++ stock.take (13 - row.length)) ++
              (rest.flatten ++ (stock.drop (13 - row.length)).take
                ((rest.map (fun row => 13 - row.length)).sum))) :=
          List.Perm.append_left _ hperm2
        refine step1.trans ?_
        rw [List.append_assoc]
        refine (List.Perm.append_left row (List.perm_append_comm_assoc _ _ _)).trans ?_
        rw [← List.append_assoc]

/-- A blocked deal returns the game unchanged (first line of `deal`). -/
theorem deal_blocked {g : Game} (h : g.getMovableCards ≠ []) (rand : Nat → Nat) :
    Game.deal rand g = some g := by
  unfold Game.deal
  rw [if_pos h]

theorem sum_thirteen_sub : ∀ rows : List (List Card), (∀ row ∈ rows, row.length ≤ 13) →
    (rows.map (fun row => 13 - row.length)).sum + (rows.map List.length).sum =
      13 * rows.length
  | [], _ => by simp
  | row :: rest, h => by
      have h0 : row.length ≤ 13 := h row (List.mem_cons_self row rest)
      have ih := sum_thirteen_sub rest (fun r hr => h r (List.mem_cons_of_mem row hr))
      simp only [List.map_cons, List.sum_cons, List.length_cons]
      have : 13 * (rest.length + 1) = 13 * rest.length + 13 := by ring
      omega

/-- The total card count of a well-formed game is 52. -/
theorem WF.total {g : Game} (hWF : WF g) :
    g.stock.length + (g.rows.map List.length).sum = 52 := by
  have hlen := hWF.perm.length_eq
  rw [List.length_append, List.length_flatten, deck_length] at hlen
  exact hlen

/-- An unblocked deal succeeds and fully repopulates the board: four rows of
13, empty stock, fresh grid-consistent positions, incremented counter. -/
theorem deal_spec {g : Game} (hWF : WF g) (hmov : g.getMovableCards = [])
    (rand : Nat → Nat) :
    ∃ g', Game.deal rand g = some g' ∧
      g'.stock = [] ∧ g'.rows.length = 4 ∧ (∀ row' ∈ g'.rows, row'.length = 13) ∧
      g'.deals = g.clearUnfinished.deals + 1 ∧ WF g' := by
  have hWFs : WF g.clearUnfinished := hWF.clear
  set s := g.clearUnfinished with hs
  have htot := hWFs.total
  have hsum13 := sum_thirteen_sub s.rows hWFs.rowLen
  rw [hWFs.rowsLen] at hsum13
  have htotal : (s.rows.map (fun row => 13 - row.length)).sum = s.stock.length := by
    omega
  have hstock1perm := perm_shuffled rand s.stock
  have hstock1len : (shuffled rand s.stock).length = s.stock.length :=
    hstock1perm.length_eq
  have hstocknodup : s.stock.Nodup := (List.nodup_append.mp hWFs.allNodup).1
  obtain ⟨rows', pos', heqf, hlen', hall', hp', hun', hgrid', hperm'⟩ :=
    fillRows_spec s.rows 0 (shuffled rand s.stock) s.pos hWFs.rowLen
      (by omega) hWFs.posLen
      (fun x hx => hWFs.stockSub x (hstock1perm.mem_iff.mp hx))
      (hstock1perm.nodup_iff.mpr hstocknodup)
      (fun x hx => hWFs.stockDisjoint (hstock1perm.mem_iff.mp hx))
      (by
        intro j r hjr i c hic
        rw [Nat.zero_add]
        exact hWFs.gridPos j i r c hjr hic)
  have hdroptot : (shuffled rand s.stock).drop
      ((s.rows.map (fun row => 13 - row.length)).sum) = [] := by
    rw [htotal, ← hstock1len]
    exact List.drop_length _
  have htaketot : (shuffled rand s.stock).take
      ((s.rows.map (fun row => 13 - row.length)).sum) = shuffled rand s.stock := by
    rw [htotal, ← hstock1len]
    exact List.take_length _
  rw [hdroptot] at heqf
  refine ⟨{ stock := [], rows := rows', pos := pos', deals := s.deals + 1 }, ?_, rfl, ?_,
    hall', rfl, ?_⟩
  · unfold Game.deal
    rw [if_neg (by simp [hmov])]
    show (Game.fillRows 0 s.rows (shuffled rand s.stock) s.pos).bind _ = _
    rw [heqf]
    rfl
  · rw [hlen', hWFs.rowsLen]
  · refine ⟨?_, ?_, hp', ?_, ?_, ?_, Or.inl rfl⟩
    · show rows'.length = 4
      rw [hlen', hWFs.rowsLen]
    · intro row' hrow'
      exact Nat.le_of_eq (hall' row' hrow')
    · show ([] ++ rows'.flatten).Perm Deck.CARDS
      rw [List.nil_append]
      rw [htaketot] at hperm'
      refine hperm'.trans ?_
      refine (List.perm_append_comm).trans ?_
      refine (List.Perm.append hstock1perm (List.Perm.refl _)).trans ?_
      exact hWFs.perm
    · intro c hc
      simp at hc
    · intro r i row' c hr' hi'
      have := hgrid' r row' hr' i c hi'
      rw [Nat.zero_add] at this
      exact this

/-! ## The swap underlying `move` -/

theorem mem_of_posOf_some {g : Game} (hp : g.pos.length = 52) {c : Card}
    {v : Nat × Nat} (h : g.posOf c = some v) : c ∈ Deck.CARDS := by
  by_contra hc
  rw [show g.posOf c = g.pos.posOf c from rfl, posOf_not_mem_deck hp hc] at h
  exact Option.noConfusion h

theorem get?_set_self {α : Type} {l : List α} {i : Nat} {x : α} (h : i < l.length) :
    (l.set i x).get? i = some x := by
  rw [List.get?_eq_getElem?, List.getElem?_set_self (by simpa using h)]

theorem get?_set_ne {α : Type} {l : List α} {i j : Nat} {x : α} (h : i ≠ j) :
    (l.set i x).get? j = l.get? j := by
  rw [List.get?_eq_getElem?, List.get?_eq_getElem?, List.getElem?_set_ne h]

theorem count_flatten_set {rows : List (List Card)} {r : Nat} {row : List Card}
    (hr : rows.get? r = some row) (row' : List Card) (x : Card) :
    ((rows.set r row').flatten.count x) + row.count x =
      rows.flatten.count x + row'.count x := by
  rw [List.count_flatten, List.count_flatten]
  exact sum_map_set (List.count x) rows r row row' hr

/-- Full characterization of a successful `_swap` of two placed cards. -/
theorem swap_spec {g : Game} (hWF : WF g) {a b : Card} {r1 c1 r2 c2 : Nat}
    (h1 : g.posOf a = some (r1, c1)) (h2 : g.posOf b = some (r2, c2)) (hne : a ≠ b) :
    ∃ g', g._swap a b = some g' ∧ WF g' ∧ g'.stock = g.stock ∧ g'.deals = g.deals ∧
      g'.posOf a = some (r2, c2) ∧ g'.posOf b = some (r1, c1) ∧
      (∀ x : Card, x ≠ a → x ≠ b → g'.posOf x = g.posOf x) := by
  have ha : a ∈ Deck.CARDS := mem_of_posOf_some hWF.posLen h1
  have hb : b ∈ Deck.CARDS := mem_of_posOf_some hWF.posLen h2
  have hcell1 : g.cellAt r1 c1 = some a := hWF.pos_cell ha h1
  have hcell2 : g.cellAt r2 c2 = some b := hWF.pos_cell hb h2
  obtain ⟨row1, hrow1, hi1⟩ := cellAt_eq hcell1
  obtain ⟨row2, hrow2, hi2⟩ := cellAt_eq hcell2
  obtain ⟨hr1lt, -⟩ := List.get?_eq_some.mp hrow1
  obtain ⟨hr2lt, -⟩ := List.get?_eq_some.mp hrow2
  obtain ⟨hc1lt, -⟩ := List.get?_eq_some.mp hi1
  obtain ⟨hc2lt, -⟩ := List.get?_eq_some.mp hi2
  have hposne : ¬(r1 = r2 ∧ c1 = c2) := by
    rintro ⟨he1, he2⟩
    subst he1; subst he2
    rw [hcell1] at hcell2
    exact hne (Option.some.inj hcell2)
  have hidxab : Deck.cardIndex a ≠ Deck.cardIndex b :=
    fun he => hne (cardIndex_inj ha hb he)
  set pos' := (g.pos.setPos a (some (r2, c2))).setPos b (some (r1, c1)) with hpos'
  have hplen : pos'.length = 52 := by
    rw [hpos', length_setPos, length_setPos]
    exact hWF.posLen
  have hplen1 : (g.pos.setPos a (some (r2, c2))).length = 52 := by
    rw [length_setPos]; exact hWF.posLen
  have hpa : pos'.posOf a = some (r2, c2) := by
    rw [hpos', posOf_setPos_ne (fun he => hidxab he.symm), posOf_setPos_self hWF.posLen ha]
  have hpb : pos'.posOf b = some (r1, c1) := by
    rw [hpos', posOf_setPos_self hplen1 hb]
  have hpx : ∀ x : Card, x ≠ a → x ≠ b → pos'.posOf x = g.pos.posOf x := by
    intro x hxa hxb
    by_cases hxd : x ∈ Deck.CARDS
    · rw [hpos', posOf_setPos_ne (fun he => hxb (cardIndex_inj hb hxd he).symm),
        posOf_setPos_ne (fun he => hxa (cardIndex_inj ha hxd he).symm)]
    · exact posOf_eq_of_not_deck hplen hWF.posLen hxd
  by_cases hr12 : r1 = r2
  · -- same row: both writes hit one row entry
    subst hr12
    rw [hrow1] at hrow2
    injection hrow2 with hroweq
    subst hroweq
    have hc12 : c1 ≠ c2 := fun he => hposne ⟨rfl, he⟩
    set rowF := (row1.set c2 a).set c1 b with hrowF
    set rowsF := g.rows.set r1 rowF with hrowsF
    have hswap : g._swap a b = some { g with pos := pos', rows := rowsF } := by
      have hget1 : (g.rows.set r1 (row1.set c2 a)).get? r1 = some (row1.set c2 a) :=
        get?_set_self hr1lt
      have hc1lt' : c1 < (row1.set c2 a).length := by
        rw [List.length_set]; exact hc1lt
      unfold Game._swap
      rw [h1, h2]
      simp only [hrow1, hget1, if_pos hc2lt, if_pos hc1lt', List.set_set]
    have hrowsFget : ∀ r : Nat, rowsF.get? r =
        if r = r1 then some rowF else g.rows.get? r := by
      intro r
      by_cases hr : r = r1
      · subst hr
        rw [if_pos rfl, hrowsF]
        exact get?_set_self hr1lt
      · rw [if_neg hr, hrowsF, get?_set_ne (fun he => hr he.symm)]
    have hrowFget : ∀ i : Nat, rowF.get? i =
        if i = c1 then some b else if i = c2 then some a else row1.get? i := by
      intro i
      by_cases hic1 : i = c1
      · subst hic1
        rw [if_pos rfl, hrowF,
          get?_set_self (by rw [List.length_set]; exact hc1lt)]
      · rw [if_neg hic1, hrowF, get?_set_ne (fun he => hic1 he.symm)]
        by_cases hic2 : i = c2
        · subst hic2
          rw [if_pos rfl, get?_set_self hc2lt]
        · rw [if_neg hic2, get?_set_ne (fun he => hic2 he.symm)]
    refine ⟨_, hswap, ?_, rfl, rfl, hpa, hpb, hpx⟩
    have hcount : ∀ x : Card, rowsF.flatten.count x = g.rows.flatten.count x := by
      intro x
      have e1 := count_flatten_set hrow1 rowF x
      have e2 := count_set row1 c2 b a x hi2
      have e3 : (row1.set c2 a).get? c1 = some a := by
        rw [get?_set_ne (fun he => hc12 he.symm)]
        exact hi1
      have e4 := count_set (row1.set c2 a) c1 a b x e3
      rw [← hrowF] at e4
      rw [← hrowsF] at e1
      omega
    have hperm : (g.stock ++ rowsF.flatten).Perm Deck.CARDS := by
      refine List.Perm.trans ?_ hWF.perm
      refine List.Perm.append_left g.stock ?_
      exact List.perm_iff_count.mpr hcount
    refine ⟨?_, ?_, hplen, hperm, ?_, ?_, ?_⟩
    · rw [hrowsF, List.length_set]
      exact hWF.rowsLen
    · intro row' hrow'
      obtain ⟨r, hr⟩ := List.mem_iff_get?.mp hrow'
      rw [hrowsFget r] at hr
      by_cases hrr : r = r1
      · rw [if_pos hrr] at hr
        injection hr with he
        subst he
        rw [hrowF, List.length_set, List.length_set]
        exact hWF.rowLen row1 (List.get?_mem hrow1)
      · rw [if_neg hrr] at hr
        exact hWF.rowLen row' (List.get?_mem hr)
    · intro c hc
      show pos'.posOf c = none
      have hca : c ≠ a := by
        intro he
        subst he
        rw [hWF.stockPos c hc] at h1
        exact Option.noConfusion h1
      have hcb : c ≠ b := by
        intro he
        subst he
        rw [hWF.stockPos c hc] at h2
        exact Option.noConfusion h2
      rw [hpx c hca hcb]
      exact hWF.stockPos c hc
    · intro r i row' c hr' hi'
      rw [hrowsFget r] at hr'
      by_cases hrr : r = r1
      · rw [if_pos hrr] at hr'
        injection hr' with he
        subst he
        rw [hrowFget i] at hi'
        by_cases hic1 : i = c1
        · rw [if_pos hic1] at hi'
          injection hi' with he
          subst he
          rw [hrr, hic1]
          exact hpb
        · rw [if_neg hic1] at hi'
          by_cases hic2 : i = c2
          · rw [if_pos hic2] at hi'
            injection hi' with he
            subst he
            rw [hrr, hic2]
            exact hpa
          · rw [if_neg hic2] at hi'
            have hold := hWF.gridPos r1 i row1 c hrow1 hi'
            have hca : c ≠ a := by
              intro he
              subst he
              rw [h1] at hold
              injection hold with hp2
              exact hic1 (congrArg Prod.snd hp2).symm
            have hcb : c ≠ b := by
              intro he
              subst he
              rw [h2] at hold
              injection hold with hp2
              exact hic2 (congrArg Prod.snd hp2).symm
            show pos'.posOf c = some (r, i)
            rw [hpx c hca hcb, hrr]
            exact hold
      · rw [if_neg hrr] at hr'
        have hold := hWF.gridPos r i row' c hr' hi'
        have hca : c ≠ a := by
          intro he
          subst he
          rw [h1] at hold
          injection hold with hp2
          exact hrr (congrArg Prod.fst hp2).symm
        have hcb : c ≠ b := by
          intro he
          subst he
          rw [h2] at hold
          injection hold with hp2
          exact hrr (congrArg Prod.fst hp2).symm
        show pos'.posOf c = some (r, i)
        rw [hpx c hca hcb]
        exact hold
    · rcases hWF.blanksNull with hstock | hblanks
      · exact Or.inl hstock
      · refine Or.inr ?_
        intro bl hbl
        show pos'.posOf bl = none
        have hbla : bl ≠ a := by
          intro he
          subst he
          rw [hblanks bl hbl] at h1
          exact Option.noConfusion h1
        have hblb : bl ≠ b := by
          intro he
          subst he
          rw [hblanks bl hbl] at h2
          exact Option.noConfusion h2
        rw [hpx bl hbla hblb]
        exact hblanks bl hbl
  · -- different rows
    have hr21 : r2 ≠ r1 := fun he => hr12 he.symm
    set rowF1 := row1.set c1 b with hrowF1
    set rowF2 := row2.set c2 a with hrowF2
    set rowsF := (g.rows.set r2 rowF2).set r1 rowF1 with hrowsF
    have hswap : g._swap a b = some { g with pos := pos', rows := rowsF } := by
      have hget1 : (g.rows.set r2 (row2.set c2 a)).get? r1 = some row1 := by
        rw [get?_set_ne hr21]
        exact hrow1
      unfold Game._swap
      rw [h1, h2]
      simp only [hrow1, hrow2, hget1, if_pos hc2lt, if_pos hc1lt]
    have hrowsFget : ∀ r : Nat, rowsF.get? r =
        if r = r1 then some rowF1 else if r = r2 then some rowF2 else g.rows.get? r := by
      intro r
      by_cases hr : r = r1
      · subst hr
        rw [if_pos rfl, hrowsF]
        exact get?_set_self (by rw [List.length_set]; exact hr1lt)
      · rw [if_neg hr, hrowsF, get?_set_ne (fun he => hr he.symm)]
        by_cases hr2 : r = r2
        · subst hr2
          rw [if_pos rfl, get?_set_self hr2lt]
        · rw [if_neg hr2, get?_set_ne (fun he => hr2 he.symm)]
    refine ⟨_, hswap, ?_, rfl, rfl, hpa, hpb, hpx⟩
    have hcount : ∀ x : Card, rowsF.flatten.count x = g.rows.flatten.count x := by
      intro x
      have hget1 : (g.rows.set r2 rowF2).get? r1 = some row1 := by
        rw [get?_set_ne hr21]
        exact hrow1
      have e1 := count_flatten_set hget1 rowF1 x
      have e2 := count_flatten_set hrow2 rowF2 x
      have e3 := count_set row1 c1 a b x hi1
      have e4 := count_set row2 c2 b a x hi2
      rw [← hrowsF] at e1
      rw [← hrowF1] at e3
      rw [← hrowF2] at e4
      omega
    have hperm : (g.stock ++ rowsF.flatten).Perm Deck.CARDS := by
      refine List.Perm.trans ?_ hWF.perm
      refine List.Perm.append_left g.stock ?_
      exact List.perm_iff_count.mpr hcount
    refine ⟨?_, ?_, hplen, hperm, ?_, ?_, ?_⟩
    · rw [hrowsF, List.length_set, List.length_set]
      exact hWF.rowsLen
    · intro row' hrow'
      obtain ⟨r, hr⟩ := List.mem_iff_get?.mp hrow'
      rw [hrowsFget r] at hr
      by_cases hra : r = r1
      · rw [if_pos hra] at hr
        injection hr with he
        subst he
        rw [hrowF1, List.length_set]
        exact hWF.rowLen row1 (List.get?_mem hrow1)
      · rw [if_neg hra] at hr
        by_cases hrb : r = r2
        · rw [if_pos hrb] at hr
          injection hr with he
          subst he
          rw [hrowF2, List.length_set]
          exact hWF.rowLen row2 (List.get?_mem hrow2)
        · rw [if_neg hrb] at hr
          exact hWF.rowLen row' (List.get?_mem hr)
    · intro c hc
      show pos'.posOf c = none
      have hca : c ≠ a := by
        intro he
        subst he
        rw [hWF.stockPos c hc] at h1
        exact Option.noConfusion h1
      have hcb : c ≠ b := by
        intro he
        subst he
        rw [hWF.stockPos c hc] at h2
        exact Option.noConfusion h2
      rw [hpx c hca hcb]
      exact hWF.stockPos c hc
    · intro r i row' c hr' hi'
      rw [hrowsFget r] at hr'
      by_cases hra : r = r1
      · rw [if_pos hra] at hr'
        injection hr' with he
        subst he
        rw [hrowF1] at hi'
        by_cases hic1 : i = c1
        · rw [hic1, get?_set_self hc1lt] at hi'
          injection hi' with he
          subst he
          rw [hra, hic1]
          exact hpb
        · rw [get?_set_ne (fun he => hic1 he.symm)] at hi'
          have hold := hWF.gridPos r1 i row1 c hrow1 hi'
          have hca : c ≠ a := by
            intro he
            subst he
            rw [h1] at hold
            injection hold with hp2
            exact hic1 (congrArg Prod.snd hp2).symm
          have hcb : c ≠ b := by
            intro he
            subst he
            rw [h2] at hold
            injection hold with hp2
            exact hr12 (congrArg Prod.fst hp2).symm
          show pos'.posOf c = some (r, i)
          rw [hpx c hca hcb, hra]
          exact hold
      · rw [if_neg hra] at hr'
        by_cases hrb : r = r2
        · rw [if_pos hrb] at hr'
          injection hr' with he
          subst he
          rw [hrowF2] at hi'
          by_cases hic2 : i = c2
          · rw [hic2, get?_set_self hc2lt] at hi'
            injection hi' with he
            subst he
            rw [hrb, hic2]
            exact hpa
          · rw [get?_set_ne (fun he => hic2 he.symm)] at hi'
            have hold := hWF.gridPos r2 i row2 c hrow2 hi'
            have hca : c ≠ a := by
              intro he
              subst he
              rw [h1] at hold
              injection hold with hp2
              exact hr21 (congrArg Prod.fst hp2).symm
            have hcb : c ≠ b := by
              intro he
              subst he
              rw [h2] at hold
              injection hold with hp2
              exact hic2 (congrArg Prod.snd hp2).symm
            show pos'.posOf c = some (r, i)
            rw [hpx c hca hcb, hrb]
            exact hold
        · rw [if_neg hrb] at hr'
          have hold := hWF.gridPos r i row' c hr' hi'
          have hca : c ≠ a := by
            intro he
            subst he
            rw [h1] at hold
            injection hold with hp2
            exact hra (congrArg Prod.fst hp2).symm
          have hcb : c ≠ b := by
            intro he
            subst he
            rw [h2] at hold
            injection hold with hp2
            exact hrb (congrArg Prod.fst hp2).symm
          show pos'.posOf c = some (r, i)
          rw [hpx c hca hcb]
          exact hold
    · rcases hWF.blanksNull with hstock | hblanks
      · exact Or.inl hstock
      · refine Or.inr ?_
        intro bl hbl
        show pos'.posOf bl = none
        have hbla : bl ≠ a := by
          intro he
          subst he
          rw [hblanks bl hbl] at h1
          exact Option.noConfusion h1
        have hblb : bl ≠ b := by
          intro he
          subst he
          rw [hblanks bl hbl] at h2
          exact Option.noConfusion h2
        rw [hpx bl hbla hblb]
        exact hblanks bl hbl

/-! ## Analysis of `move` -/

theorem swap_inv {g g' : Game} {a b : Card} (h : g._swap a b = some g') :
    ∃ r1 c1 r2 c2, g.posOf a = some (r1, c1) ∧ g.posOf b = some (r2, c2) := by
  unfold Game._swap at h
  cases hpa : g.posOf a with
  | none =>
      rw [hpa] at h
      simp at h
  | some v1 =>
      cases hpb : g.posOf b with
      | none =>
          rw [hpa, hpb] at h
          simp at h
      | some v2 =>
          obtain ⟨r1, c1⟩ := v1
          obtain ⟨r2, c2⟩ := v2
          exact ⟨r1, c1, r2, c2, rfl, rfl⟩

theorem mem_insertByRow {g : Game} {x c : Card} : ∀ {l : List Card},
    x ∈ g.insertByRow c l ↔ x = c ∨ x ∈ l := by
  intro l
  induction l with
  | nil => simp [Game.insertByRow]
  | cons d rest ih =>
      unfold Game.insertByRow
      by_cases hcmp : ((g.posOf c).map Prod.fst).getD 0 < ((g.posOf d).map Prod.fst).getD 0
      · rw [if_pos hcmp]
        simp [List.mem_cons]
      · rw [if_neg hcmp]
        simp only [List.mem_cons, ih]
        tauto

theorem mem_sortByRow {g : Game} {x : Card} : ∀ {l : List Card},
    x ∈ g.sortByRow l ↔ x ∈ l := by
  intro l
  induction l with
  | nil => simp [Game.sortByRow]
  | cons c rest ih =>
      unfold Game.sortByRow
      rw [mem_insertByRow, ih]
      simp [List.mem_cons]

theorem blank_prev_next_none : ∀ c ∈ Deck.CARDS, c.isBlank →
    c.prevRank = none ∧ c.nextRank = none := by decide

/-- When some blank sits in column 0, every rank-2 card is movable. -/
theorem two_movable {g : Game} {b : Card} (hb : b ∈ Deck.getBlanks) {r : Nat}
    (hpos : g.posOf b = some (r, 0)) {t : Card} (ht : t ∈ Deck.getCardsByRank "2") :
    t ∈ g.getMovableCards := by
  rw [mem_getMovableCards_iff]
  refine ⟨b, hb, ?_⟩
  unfold Game.blankContribList
  rw [hpos]
  simpa using ht

/-- A blank with a qualifying left neighbour makes that neighbour's successor
movable. -/
theorem succ_movable {g : Game} {d : Card} (hd : d ∈ Deck.getBlanks)
    {r col : Nat} (hpos : g.posOf d = some (r, col)) (hcol : col ≠ 0)
    {L : Card} (hleft : g.cellAt r (col - 1) = some L)
    (hLb : ¬L.isBlank) (hLK : L.rank ≠ "K") {n : Card} (hn : L.nextRank = some n) :
    n ∈ g.getMovableCards := by
  have hctl : g.cardToLeft d = some L := by
    unfold Game.cardToLeft
    rw [hpos]
    show (if col = 0 then none else g.cellAt r (col - 1)) = some L
    rw [if_neg hcol]
    exact hleft
  rw [mem_getMovableCards_iff]
  refine ⟨d, hd, ?_⟩
  unfold Game.blankContribList
  rw [hpos]
  show n ∈ (if col = 0 then Deck.getCardsByRank "2" else
    match g.cardToLeft d with
    | some left =>
        if ¬left.isBlank ∧ left.rank ≠ "K" then
          match left.nextRank with
          | some nn => [nn]
          | none => []
        else []
    | none => [])
  rw [if_neg hcol, hctl]
  show n ∈ (if ¬L.isBlank ∧ L.rank ≠ "K" then
      match L.nextRank with
      | some nn => [nn]
      | none => []
    else [])
  rw [if_pos ⟨by simpa using hLb, hLK⟩, hn]
  exact List.mem_singleton.mpr rfl

/-- A finalized card that is not a rank-2 sits immediately to the right of the
chain card linking to it. -/
theorem finalized_nonhead {g : Game} (hWF : WF g) {f : Card}
    (hf : f ∈ g.getFinalizedCards) (hrank : f.rank ≠ "2") :
    ∃ (w : Card) (r j : Nat), w.nextRank = some f ∧
      g.posOf w = some (r, j) ∧ g.posOf f = some (r, j + 1) := by
  obtain ⟨r, row, hr, hct⟩ := (finalized_iff hWF).mp hf
  obtain ⟨j0, hj0⟩ := List.mem_iff_get?.mp hct
  cases j0 with
  | zero =>
      exfalso
      cases hctl : chainTake row with
      | nil => rw [hctl] at hj0; simp at hj0
      | cons c0 rest =>
          obtain ⟨-, hc0rank, -⟩ := chainTake_head hctl
          rw [hctl] at hj0
          simp only [List.get?_cons_zero, Option.some.injEq] at hj0
          rw [← hj0] at hrank
          exact hrank hc0rank
  | succ j =>
      obtain ⟨hlt, -⟩ := List.get?_eq_some.mp hj0
      have hjlt : j < (chainTake row).length := by omega
      have hwex : ∃ w, (chainTake row).get? j = some w :=
        ⟨(chainTake row).get ⟨j, hjlt⟩, List.get?_eq_get hjlt⟩
      obtain ⟨w, hw⟩ := hwex
      have hlink := chainTake_links j hw hj0
      have hrowj : row.get? j = some w := by
        rw [prefix_get? (chainTake_isPrefix row) hjlt]
        exact hw
      have hrowj1 : row.get? (j + 1) = some f := by
        rw [prefix_get? (chainTake_isPrefix row) hlt]
        exact hj0
      exact ⟨w, r, j, hlink, hWF.gridPos r j row w hr hrowj,
        hWF.gridPos r (j + 1) row f hr hrowj1⟩

/-- Inversion of a successful `move`: it either left the game unchanged or
performed a swap with a column-0 blank (rank-2 case) or with the blank to the
right of the moved card's predecessor. -/
theorem move_inv {g g' : Game} {card : Card} (h : Game.move g card = some g') :
    g' = g ∨
    (∃ b rb, b ∈ Deck.getBlanks ∧ g.posOf b = some (rb, 0) ∧ card.rank = "2" ∧
      g._swap card b = some g') ∨
    (∃ p pr pc prow dest, card.prevRank = some p ∧ g.posOf p = some (pr, pc) ∧
      g.rows.get? pr = some prow ∧ prow.get? (pc + 1) = some dest ∧
      dest.isBlank ∧ g._swap card dest = some g') := by
  unfold Game.move at h
  by_cases hrank : card.rank = "2"
  · rw [if_pos hrank] at h
    cases hbl : g.sortByRow (Deck.getBlanks.filter
        (fun c => (g.posOf c).map Prod.snd = some 0)) with
    | nil =>
        rw [hbl] at h
        have h0 : some g = some g' := h
        exact Or.inl (Option.some.inj h0).symm
    | cons b0 tail =>
        rw [hbl] at h
        have hmemsort : ∀ x ∈ b0 :: tail, x ∈ Deck.getBlanks ∧
            ∃ rx, g.posOf x = some (rx, 0) := by
          intro x hx
          have hx2 : x ∈ g.sortByRow (Deck.getBlanks.filter
              (fun c => (g.posOf c).map Prod.snd = some 0)) := by
            rw [hbl]
            exact hx
          rw [mem_sortByRow] at hx2
          obtain ⟨hxb, hxp⟩ := List.mem_filter.mp hx2
          simp only [decide_eq_true_eq] at hxp
          refine ⟨hxb, ?_⟩
          cases hpos : g.posOf x with
          | none => rw [hpos] at hxp; simp at hxp
          | some v =>
              obtain ⟨rx, cx⟩ := v
              rw [hpos] at hxp
              simp at hxp
              exact ⟨rx, by rw [hxp]⟩
        obtain ⟨hb0b, rb, hb0pos⟩ :
            b0 ∈ Deck.getBlanks ∧ ∃ rb, g.posOf b0 = some (rb, 0) := by
          have := hmemsort b0 (List.mem_cons_self b0 tail)
          exact ⟨this.1, this.2⟩
        have h1 : (if (g.posOf card).map Prod.snd ≠ some 0 then g._swap card b0
            else
              match (b0 :: tail).filter
                  (fun c => ((g.posOf card).map Prod.fst).getD 0 <
                    ((g.posOf c).map Prod.fst).getD 0) with
              | b :: _ => g._swap card b
              | [] => g._swap card b0) = some g' := h
        by_cases hc0 : (g.posOf card).map Prod.snd ≠ some 0
        · rw [if_pos hc0] at h1
          exact Or.inr (Or.inl ⟨b0, rb, hb0b, hb0pos, hrank, h1⟩)
        · rw [if_neg hc0] at h1
          cases hbac : (b0 :: tail).filter
              (fun c => ((g.posOf card).map Prod.fst).getD 0 <
                ((g.posOf c).map Prod.fst).getD 0) with
          | nil =>
              rw [hbac] at h1
              have h2 : g._swap card b0 = some g' := h1
              exact Or.inr (Or.inl ⟨b0, rb, hb0b, hb0pos, hrank, h2⟩)
          | cons b btail =>
              rw [hbac] at h1
              have h2 : g._swap card b = some g' := h1
              have hbmem : b ∈ b0 :: tail := by
                have : b ∈ (b0 :: tail).filter
                    (fun c => ((g.posOf card).map Prod.fst).getD 0 <
                      ((g.posOf c).map Prod.fst).getD 0) := by
                  rw [hbac]
                  exact List.mem_cons_self b btail
                exact List.mem_of_mem_filter this
              obtain ⟨hbb, rb', hbpos⟩ :
                  b ∈ Deck.getBlanks ∧ ∃ rx, g.posOf b = some (rx, 0) := by
                have := hmemsort b hbmem
                exact ⟨this.1, this.2⟩
              exact Or.inr (Or.inl ⟨b, rb', hbb, hbpos, hrank, h2⟩)
  · rw [if_neg hrank] at h
    cases hp : card.prevRank with
    | none =>
        rw [hp] at h
        have h0 : (none : Option Game) = some g' := h
        exact Option.noConfusion h0
    | some p =>
        rw [hp] at h
        have hA : (match g.posOf p with
            | none => none
            | some (pr, pc) =>
                match g.rows.get? pr with
                | none => none
                | some prow =>
                    if pc + 1 < prow.length then
                      match prow.get? (pc + 1) with
                      | some dest =>
                          if dest.isBlank then g._swap card dest else some g
                      | none => none
                    else some g) = some g' := h
        cases hppos : g.posOf p with
        | none =>
            rw [hppos] at hA
            have h0 : (none : Option Game) = some g' := hA
            exact Option.noConfusion h0
        | some v =>
            obtain ⟨pr, pc⟩ := v
            rw [hppos] at hA
            have hB : (match g.rows.get? pr with
                | none => none
                | some prow =>
                    if pc + 1 < prow.length then
                      match prow.get? (pc + 1) with
                      | some dest =>
                          if dest.isBlank then g._swap card dest else some g
                      | none => none
                    else some g) = some g' := hA
            cases hprow : g.rows.get? pr with
            | none =>
                rw [hprow] at hB
                have h0 : (none : Option Game) = some g' := hB
                exact Option.noConfusion h0
            | some prow =>
                rw [hprow] at hB
                have h1 : (if pc + 1 < prow.length then
                    match prow.get? (pc + 1) with
                    | some dest =>
                        if dest.isBlank then g._swap card dest else some g
                    | none => none
                  else some g) = some g' := hB
                by_cases hlt : pc + 1 < prow.length
                · rw [if_pos hlt] at h1
                  cases hdest : prow.get? (pc + 1) with
                  | none =>
                      rw [hdest] at h1
                      have h0 : (none : Option Game) = some g' := h1
                      exact Option.noConfusion h0
                  | some dest =>
                      rw [hdest] at h1
                      have h2 : (if dest.isBlank then g._swap card dest else some g) =
                          some g' := h1
                      by_cases hdb : dest.isBlank
                      · rw [if_pos hdb] at h2
                        exact Or.inr (Or.inr ⟨p, pr, pc, prow, dest, rfl, hppos, hprow,
                          hdest, hdb, h2⟩)
                      · rw [if_neg hdb] at h2
                        exact Or.inl (Option.some.inj h2).symm
                · rw [if_neg hlt] at h1
                  exact Or.inl (Option.some.inj h1).symm

/-- When a blank is placed, the stock is empty and every deck card occupies a
grid cell. -/
theorem placed_blank_stock_empty {g : Game} (hWF : WF g) {b : Card}
    (hb : b ∈ Deck.getBlanks) {v : Nat × Nat} (hpos : g.posOf b = some v) :
    g.stock = [] := by
  rcases hWF.blanksNull with hE | hall
  · exact hE
  · exfalso
    rw [hall b hb] at hpos
    exact Option.noConfusion hpos

theorem all_placed_of_stock_empty {g : Game} (hWF : WF g) (hstock : g.stock = [])
    {c : Card} (hc : c ∈ Deck.CARDS) : ∃ r i, g.posOf c = some (r, i) := by
  have hmem : c ∈ g.stock ++ g.rows.flatten := hWF.perm.mem_iff.mpr hc
  rw [hstock, List.nil_append] at hmem
  obtain ⟨row, hrow, hcrow⟩ := List.mem_flatten.mp hmem
  obtain ⟨r, hr⟩ := List.mem_iff_get?.mp hrow
  obtain ⟨i, hi⟩ := List.mem_iff_get?.mp hcrow
  exact ⟨r, i, hWF.gridPos r i row c hr hi⟩

/-- Finishing a rank-2 move: the swap with a column-0 blank succeeds, keeps
the game well-formed and never displaces a non-2 finalized card. -/
theorem move_swap_two {g : Game} (hWF : WF g) {card b : Card}
    (hcd : card ∈ Deck.CARDS) (hrank : card.rank = "2") (hb : b ∈ Deck.getBlanks)
    {rb : Nat} (hbpos : g.posOf b = some (rb, 0)) :
    ∃ g', g._swap card b = some g' ∧ WF g' ∧ g'.stock = g.stock ∧ g'.deals = g.deals ∧
      (∀ f ∈ g.getFinalizedCards, f.rank ≠ "2" → g'.posOf f = g.posOf f) := by
  have hstockE : g.stock = [] := placed_blank_stock_empty hWF hb hbpos
  obtain ⟨rc, cc, hcpos⟩ := all_placed_of_stock_empty hWF hstockE hcd
  have hne : card ≠ b := by
    intro he
    exact (two_not_blank card hcd hrank) (by rw [he]; exact blanks_isBlank b hb)
  obtain ⟨g', hsw, hWF', hstock, hdeals, hpa, hpb, hpx⟩ :=
    swap_spec hWF hcpos hbpos hne
  refine ⟨g', hsw, hWF', hstock, hdeals, ?_⟩
  intro f hf hfrank
  have hfc : f ≠ card := by
    intro he
    rw [he] at hfrank
    exact hfrank hrank
  have hfb : f ≠ b := by
    intro he
    exact (finalized_not_blank hWF hf) (by rw [he]; exact blanks_isBlank b hb)
  exact hpx f hfc hfb

/-- Finishing a non-2 move into the blank right of the predecessor: the swap
succeeds, preserves well-formedness, makes the card movable, and never
displaces a non-2 finalized card. -/
theorem move_swap_succ {g : Game} (hWF : WF g) {card p dest : Card}
    (hcd : card ∈ Deck.CARDS) (hp : card.prevRank = some p)
    {pr pc : Nat} (hppos : g.posOf p = some (pr, pc))
    {prow : List Card} (hprow : g.rows.get? pr = some prow)
    (hdest : prow.get? (pc + 1) = some dest) (hdb : dest.isBlank) :
    ∃ g', g._swap card dest = some g' ∧ WF g' ∧ g'.stock = g.stock ∧
      g'.deals = g.deals ∧ card ∈ g.getMovableCards ∧
      (∀ f ∈ g.getFinalizedCards, f.rank ≠ "2" → g'.posOf f = g.posOf f) := by
  obtain ⟨hpmem, hpnb, hpK, hpnext⟩ := prevRank_spec hcd hp
  have hdpos : g.posOf dest = some (pr, pc + 1) :=
    hWF.gridPos pr (pc + 1) prow dest hprow hdest
  have hdmem : dest ∈ Deck.CARDS :=
    hWF.rowsSub prow (List.get?_mem hprow) dest (List.get?_mem hdest)
  have hdblank : dest ∈ Deck.getBlanks := by
    unfold Deck.getBlanks
    exact List.mem_filter.mpr ⟨hdmem, hdb⟩
  have hstockE : g.stock = [] := placed_blank_stock_empty hWF hdblank hdpos
  obtain ⟨rc, cc, hcpos⟩ := all_placed_of_stock_empty hWF hstockE hcd
  have hne : card ≠ dest := by
    intro he
    have := (blank_prev_next_none dest hdmem hdb).1
    rw [← he, hp] at this
    exact Option.noConfusion this
  obtain ⟨g', hsw, hWF', hstock, hdeals, hpa, hpb, hpx⟩ :=
    swap_spec hWF hcpos hdpos hne
  have hpcell : g.cellAt pr pc = some p := by
    unfold Game.cellAt
    rw [hprow]
    have : prow.get? pc = some p := by
      have hcellp := hWF.pos_cell hpmem hppos
      obtain ⟨prow2, hprow2, hi2⟩ := cellAt_eq hcellp
      rw [hprow] at hprow2
      injection hprow2 with he
      rw [← he] at hi2
      exact hi2
    simpa using this
  have hmov : card ∈ g.getMovableCards := by
    refine succ_movable hdblank hdpos (Nat.succ_ne_zero pc) ?_
      (by simpa using hpnb) hpK hpnext
    have : pc + 1 - 1 = pc := by omega
    rw [this]
    exact hpcell
  refine ⟨g', hsw, hWF', hstock, hdeals, hmov, ?_⟩
  intro f hf hfrank
  have hfd : f ≠ dest := by
    intro he
    exact (finalized_not_blank hWF hf) (by rw [he]; exact hdb)
  have hfc : f ≠ card := by
    intro he
    subst he
    obtain ⟨w, r, j, hwlink, hwpos, hfpos⟩ := finalized_nonhead hWF hf hfrank
    have hwmem : w ∈ Deck.CARDS := mem_of_posOf_some hWF.posLen hwpos
    have hwspec := nextRank_spec hwmem hwlink
    have hwp : w = p := by
      have := hwspec.2.2.2
      rw [hp] at this
      exact (Option.some.inj this).symm
    subst hwp
    rw [hppos] at hwpos
    injection hwpos with hpair
    have hr : r = pr := (congrArg Prod.fst hpair).symm
    have hj : j = pc := (congrArg Prod.snd hpair).symm
    rw [hr, hj] at hfpos
    have hfcell : g.cellAt pr (pc + 1) = some f :=
      hWF.pos_cell (mem_of_posOf_some hWF.posLen hfpos) hfpos
    have hdcell : g.cellAt pr (pc + 1) = some dest := by
      unfold Game.cellAt
      rw [hprow]
      simpa using hdest
    rw [hfcell] at hdcell
    exact hfd (Option.some.inj hdcell)
  exact hpx f hfc hfd

/-- `move` preserves well-formedness on any successful call. -/
theorem WF.move_pres {g g' : Game} (hWF : WF g) {c : Card}
    (h : Game.move g c = some g') : WF g' := by
  rcases move_inv h with rfl | ⟨b, rb, hb, hbpos, hrank, hsw⟩ |
      ⟨p, pr, pc, prow, dest, hp, hppos, hprow, hdest, hdb, hsw⟩
  · exact hWF
  · obtain ⟨r1, c1, r2, c2, hcp, -⟩ := swap_inv hsw
    have hcd : c ∈ Deck.CARDS := mem_of_posOf_some hWF.posLen hcp
    obtain ⟨g'', hsw', hWF', -⟩ := move_swap_two hWF hcd hrank hb hbpos
    rw [hsw] at hsw'
    rw [Option.some.inj hsw']
    exact hWF'
  · obtain ⟨r1, c1, r2, c2, hcp, -⟩ := swap_inv hsw
    have hcd : c ∈ Deck.CARDS := mem_of_posOf_some hWF.posLen hcp
    obtain ⟨g'', hsw', hWF', -⟩ := move_swap_succ hWF hcd hp hppos hprow hdest hdb
    rw [hsw] at hsw'
    rw [Option.some.inj hsw']
    exact hWF'

/-- `move` never changes the position of a finalized card whose rank is not
2 (on any successful call). -/
theorem move_finalized_pres {g g' : Game} (hWF : WF g) {c : Card}
    (h : Game.move g c = some g') :
    ∀ f ∈ g.getFinalizedCards, f.rank ≠ "2" → g'.posOf f = g.posOf f := by
  rcases move_inv h with rfl | ⟨b, rb, hb, hbpos, hrank, hsw⟩ |
      ⟨p, pr, pc, prow, dest, hp, hppos, hprow, hdest, hdb, hsw⟩
  · intro f _ _; rfl
  · obtain ⟨r1, c1, r2, c2, hcp, -⟩ := swap_inv hsw
    have hcd : c ∈ Deck.CARDS := mem_of_posOf_some hWF.posLen hcp
    obtain ⟨g'', hsw', -, -, -, hfin⟩ := move_swap_two hWF hcd hrank hb hbpos
    rw [hsw] at hsw'
    rw [Option.some.inj hsw']
    exact hfin
  · obtain ⟨r1, c1, r2, c2, hcp, -⟩ := swap_inv hsw
    have hcd : c ∈ Deck.CARDS := mem_of_posOf_some hWF.posLen hcp
    obtain ⟨g'', hsw', -, -, -, -, hfin⟩ :=
      move_swap_succ hWF hcd hp hppos hprow hdest hdb
    rw [hsw] at hsw'
    rw [Option.some.inj hsw']
    exact hfin

/-! ## Reachable states are well-formed -/

/-- The initial game is well-formed. -/
theorem WF_init : WF initGame := by
  refine ⟨rfl, by decide, by decide, ?_, by decide, ?_, Or.inr (by decide)⟩
  · show (Deck.all ++ [[], [], [], []].flatten).Perm Deck.CARDS
    simp [Deck.all]
  · intro r i row c hr hi
    have hm : row ∈ initGame.rows := List.get?_mem hr
    have hrow : row = [] := by
      simp only [initGame, List.mem_cons, List.not_mem_nil, or_false] at hm
      rcases hm with h | h | h | h <;> exact h
    rw [hrow] at hi
    simp at hi

/-- `deal` preserves well-formedness on any successful call. -/
theorem WF.deal_pres {g g' : Game} (hWF : WF g) {rand : Nat → Nat}
    (h : Game.deal rand g = some g') : WF g' := by
  by_cases hmov : g.getMovableCards = []
  · obtain ⟨g'', hd, -, -, -, -, hWF'⟩ := deal_spec hWF hmov rand
    rw [h] at hd
    rw [Option.some.inj hd]
    exact hWF'
  · have hd := deal_blocked hmov rand
    rw [h] at hd
    rw [Option.some.inj hd]
    exact hWF

/-- Every reachable game state is well-formed. -/
theorem WF_reachable {g : Game} (h : Reachable g) : WF g := by
  induction h with
  | init => exact WF_init
  | deal rand hre hd ih => exact ih.deal_pres hd
  | move c hre hm ih => exact ih.move_pres hm
  | clear hre ih => exact ih.clear

/-! ## A concrete run of the game -/

/-- The identity choice function: the Fisher–Yates pass leaves the stock in
its original order. -/
def rand1 : Nat → Nat := fun i => i

/-- Choices that differ from `rand1` only at step 39 of the shuffle, which
puts the blank `B4` at the head of row 1 on the second deal. -/
def rand2 : Nat → Nat := fun i => if i = 39 then 1 else i

/-- The 2 of clubs. -/
def twoC : Card := ⟨"2", "C"⟩

/-- The 3 of clubs. -/
def threeC : Card := ⟨"3", "C"⟩

/-- The state after dealing the fresh game with `rand1`: row 0 is the full
club run `2C..KC` followed by `2D`, and the four blanks end row 3. -/
def g1 : Game := (Game.deal rand1 initGame).getD initGame

/-- The state after a second deal with `rand2`: the club run `2C..KC` is
finalized in row 0 and the blank `B4` sits at cell `(1, 0)`. -/
def g2 : Game := (Game.deal rand2 g1).getD initGame

/-- The state after moving the already finalized 2 of clubs in `g2`: the swap
drags it to the column-0 blank of row 1. -/
def g3 : Game := (Game.move g2 twoC).getD initGame

theorem deal1_eq : Game.deal rand1 initGame = some g1 := rfl

theorem deal2_eq : Game.deal rand2 g1 = some g2 := rfl

theorem move3_eq : Game.move g2 twoC = some g3 := rfl

theorem reach_g1 : Reachable g1 := Reachable.deal rand1 Reachable.init deal1_eq

theorem reach_g2 : Reachable g2 := Reachable.deal rand2 reach_g1 deal2_eq

/-! ## Spec-side formulations, built from the specification's words -/

/-- The successor as the specification words it: the card one rank higher in
the same suit, built directly from `RANKS` rather than read off the catalog
links. -/
def specSuccessor (c : Card) : Option Card :=
  (Card.RANKS.findIdx? (fun r => r = c.rank)).bind
    (fun i => (Card.RANKS.get? (i + 1)).map (fun rk => Card.mk rk c.suit))

/-- The predecessor as the specification words it: the card one rank lower in
the same suit, `none` at the bottom. -/
def specPredecessor (c : Card) : Option Card :=
  (Card.RANKS.findIdx? (fun r => r = c.rank)).bind
    (fun i => if i = 0 then none
      else (Card.RANKS.get? (i - 1)).map (fun rk => Card.mk rk c.suit))

/-- The movable set as the specification derives it: some placed blank
contributes `x`, a column-0 blank contributing every rank-2 card and any
other blank the spec-side successor of a qualifying left neighbour. -/
def movableSpec (g : Game) (x : Card) : Prop :=
  ∃ b ∈ Deck.getBlanks, ∃ r i, g.posOf b = some (r, i) ∧
    ((i = 0 ∧ x ∈ Deck.getCardsByRank "2") ∨
     (i ≠ 0 ∧ ∃ L, g.cellAt r (i - 1) = some L ∧ L.isBlank = false ∧
        L.rank ≠ "K" ∧ specSuccessor L = some x))

/-- On every catalog card the source's `nextRank` link agrees with the
spec-worded successor. -/
theorem next_eq_specSuccessor : ∀ c ∈ Deck.CARDS, c.nextRank = specSuccessor c := by
  decide

/-- On every catalog card the source's `prevRank` link agrees with the
spec-worded predecessor. -/
theorem prev_eq_specPredecessor : ∀ c ∈ Deck.CARDS, c.prevRank = specPredecessor c := by
  decide

/-- The computed movable list realizes the specification's derivation on any
well-formed state. -/
theorem movable_iff {g : Game} (hWF : WF g) {x : Card} :
    x ∈ g.getMovableCards ↔ movableSpec g x := by
  constructor
  · intro hmem
    obtain ⟨b, hb, hx⟩ := mem_getMovableCards_iff.mp hmem
    unfold Game.blankContribList at hx
    cases hpos : g.posOf b with
    | none => rw [hpos] at hx; simp at hx
    | some rc =>
        obtain ⟨r, i⟩ := rc
        rw [hpos] at hx
        have hx' : x ∈ (if i = 0 then Deck.getCardsByRank "2"
            else match g.cardToLeft b with
              | some left =>
                  if ¬left.isBlank ∧ left.rank ≠ "K" then
                    match left.nextRank with
                    | some n => [n]
                    | none => []
                  else []
              | none => []) := hx
        by_cases hi : i = 0
        · rw [if_pos hi] at hx'
          exact ⟨b, hb, r, i, hpos, Or.inl ⟨hi, by simpa using hx'⟩⟩
        · rw [if_neg hi] at hx'
          cases hleft : g.cardToLeft b with
          | none => rw [hleft] at hx'; simp at hx'
          | some L =>
              rw [hleft] at hx'
              have hx2 : x ∈ (if ¬L.isBlank ∧ L.rank ≠ "K" then
                  match L.nextRank with
                  | some n => [n]
                  | none => []
                else []) := hx'
              by_cases hcond : ¬L.isBlank ∧ L.rank ≠ "K"
              · rw [if_pos hcond] at hx2
                cases hnx : L.nextRank with
                | none => rw [hnx] at hx2; simp at hx2
                | some n =>
                    rw [hnx] at hx2
                    have hxn : x = n := by simpa using hx2
                    have hcell : g.cellAt r (i - 1) = some L := by
                      unfold Game.cardToLeft at hleft
                      rw [hpos] at hleft
                      have hleft' : (if i = 0 then none else g.cellAt r (i - 1)) =
                          some L := hleft
                      rw [if_neg hi] at hleft'
                      exact hleft'
                    obtain ⟨row, hrow, hidx⟩ := cellAt_eq hcell
                    have hLmem : L ∈ Deck.CARDS :=
                      hWF.rowsSub row (List.get?_mem hrow) L (List.get?_mem hidx)
                    refine ⟨b, hb, r, i, hpos,
                      Or.inr ⟨hi, L, hcell, by simpa using hcond.1, hcond.2, ?_⟩⟩
                    rw [← next_eq_specSuccessor L hLmem, hnx, hxn]
              · rw [if_neg hcond] at hx2
                simp at hx2
  · rintro ⟨b, hb, r, i, hpos, ⟨hi, hx2⟩ | ⟨hi, L, hcell, hLb, hLK, hsx⟩⟩
    · rw [hi] at hpos
      exact two_movable hb hpos hx2
    · obtain ⟨row, hrow, hidx⟩ := cellAt_eq hcell
      have hLmem : L ∈ Deck.CARDS :=
        hWF.rowsSub row (List.get?_mem hrow) L (List.get?_mem hidx)
      refine succ_movable hb hpos hi hcell (by simp [hLb]) hLK ?_
      rw [next_eq_specSuccessor L hLmem]
      exact hsx

/-! ## The claims -/

/-- C1. Card-count conservation: in every Board state reachable from the
initial state by `deal`, `move` and `clearUnfinished`, the stock length plus
the sum of the four row lengths equals 52. -/
theorem claim_C1 {g : Game} (h : Reachable g) :
    g.stock.length + (g.rows.map List.length).sum = 52 :=
  (WF_reachable h).total

theorem claim_C1_witness :
    initGame.stock.length + (initGame.rows.map List.length).sum = 52 :=
  claim_C1 Reachable.init

/-- C2. Deal blocking: whenever `getMovableCards()` is non-empty, `deal`
returns the very same board (the JS `return this`): same stock, same rows,
same deal counter, no position mutated. -/
theorem claim_C2 {g : Game} (rand : Nat → Nat) (h : g.getMovableCards ≠ []) :
    Game.deal rand g = some g :=
  deal_blocked h rand

theorem claim_C2_witness :
    g2.getMovableCards ≠ [] ∧ Game.deal rand1 g2 = some g2 :=
  ⟨by decide, claim_C2 rand1 (by decide)⟩

/-- C3 (amended). A finalized card of rank other than "2" is never displaced
by any `move` on a reachable board; the unamended claim fails on the rank-2
head itself, see the counterexample. -/
theorem claim_C3 {g g' : Game} (h : Reachable g) {c : Card}
    (hm : Game.move g c = some g') :
    ∀ f ∈ g.getFinalizedCards, f.rank ≠ "2" → g'.posOf f = g.posOf f :=
  move_finalized_pres (WF_reachable h) hm

theorem claim_C3_witness :
    Reachable g2 ∧ Game.move g2 twoC = some g3 ∧
      g3.posOf threeC = g2.posOf threeC :=
  ⟨reach_g2, move3_eq, claim_C3 reach_g2 move3_eq threeC (by decide) (by decide)⟩

/-- C3, counterexample: on the reachable state `g2` the 2 of clubs is
finalized (it heads the complete club run of row 0), yet `move` on it
succeeds and drags it to the column-0 blank of row 1, changing its grid
position. -/
theorem claim_C3_counterexample :
    Reachable g2 ∧ twoC ∈ g2.getFinalizedCards ∧
      Game.move g2 twoC = some g3 ∧ g3.posOf twoC ≠ g2.posOf twoC :=
  ⟨reach_g2, by decide, move3_eq, by decide⟩

/-- C4. The claim says every `move` returns a snapshot without raising and
that moving a non-2 card whose predecessor is undealt is a no-op; in the
code that very case reads `rows[null].length` and throws a TypeError
(rendered `none` here): on the fresh board, `move(3♣)` has `3♣.prevRank =
2♣` still undealt, and the call crashes instead of returning a board. -/
theorem claim_C4 :
    threeC.rank ≠ "2" ∧ threeC.prevRank = some twoC ∧
      initGame.posOf twoC = none ∧ Game.move initGame threeC = none :=
  ⟨by decide, by decide, by decide, rfl⟩

/-- C5. Position-grid bijection on every reachable board: a catalog card with
position `(r, i)` sits at cell `rows[r][i]`, two cards sharing a position are
equal, and every stocked card has a null position. -/
theorem claim_C5 {g : Game} (h : Reachable g) :
    (∀ c ∈ Deck.CARDS, ∀ r i, g.posOf c = some (r, i) → g.cellAt r i = some c) ∧
    (∀ c ∈ Deck.CARDS, ∀ d ∈ Deck.CARDS, ∀ r i,
        g.posOf c = some (r, i) → g.posOf d = some (r, i) → c = d) ∧
    (∀ c ∈ g.stock, g.posOf c = none) := by
  have hWF := WF_reachable h
  refine ⟨fun c hc r i hp => hWF.pos_cell hc hp, ?_, hWF.stockPos⟩
  intro c hc d hd r i hpc hpd
  have h1 := hWF.pos_cell hc hpc
  have h2 := hWF.pos_cell hd hpd
  rw [h1] at h2
  exact Option.some.inj h2

theorem claim_C5_witness :
    Reachable g2 ∧ g2.cellAt 0 0 = some twoC :=
  ⟨reach_g2, (claim_C5 reach_g2).1 twoC (by decide) 0 0 (by decide)⟩

/-- C6. Idempotence of `clearUnfinished` on every reachable board: clearing
twice gives the same state — rows, stock and positions — as clearing once. -/
theorem claim_C6 {g : Game} (h : Reachable g) :
    g.clearUnfinished.clearUnfinished = g.clearUnfinished :=
  clear_clear (WF_reachable h)

theorem claim_C6_witness :
    Reachable g2 ∧ g2.clearUnfinished.clearUnfinished = g2.clearUnfinished :=
  ⟨reach_g2, claim_C6 reach_g2⟩

/-- C7. Deal round trip: dealing the initial board, under every outcome of
the shuffle's random choices, gives four rows of 13 cards, an empty stock,
and each dealt card positioned at its grid indices. -/
theorem claim_C7 (rand : Nat → Nat) :
    ∃ g', Game.deal rand initGame = some g' ∧ g'.stock = [] ∧
      g'.rows.length = 4 ∧ (∀ row ∈ g'.rows, row.length = 13) ∧
      (∀ r i row c, g'.rows.get? r = some row → row.get? i = some c →
        g'.posOf c = some (r, i)) := by
  have hmov : initGame.getMovableCards = [] := by decide
  obtain ⟨g', hd, hstock, h4, h13, -, hWF'⟩ := deal_spec WF_init hmov rand
  exact ⟨g', hd, hstock, h4, h13, hWF'.gridPos⟩

/-- C8. Movable-card derivation: on every reachable board the computed
movable list holds exactly the cards the specification derives — a placed
column-0 blank contributes every rank-2 card, any other placed blank the
spec-built same-suit successor of a non-blank, non-King left neighbour,
stocked blanks contribute nothing — and the list has no duplicates. -/
theorem claim_C8 {g : Game} (h : Reachable g) :
    (∀ x, x ∈ g.getMovableCards ↔ movableSpec g x) ∧ g.getMovableCards.Nodup :=
  ⟨fun _ => movable_iff (WF_reachable h), getMovableCards_nodup g⟩

theorem claim_C8_witness :
    Reachable g2 ∧ movableSpec g2 twoC :=
  ⟨reach_g2, ((claim_C8 reach_g2).1 twoC).mp (by decide)⟩

/-- C9. Successor/predecessor contract: on every catalog card, `nextRank` is
the spec-worded card one rank higher in the same suit and `prevRank` the one
rank lower, with no successor at "K", no predecessor at "2", and neither on
a blank. -/
theorem claim_C9 : ∀ c ∈ Deck.CARDS,
    (c.isBlank = true → c.nextRank = none ∧ c.prevRank = none) ∧
    (c.rank = "K" → c.nextRank = none) ∧
    (c.rank = "2" → c.prevRank = none) ∧
    c.nextRank = specSuccessor c ∧ c.prevRank = specPredecessor c := by
  decide

theorem claim_C9_witness :
    threeC ∈ Deck.CARDS ∧ threeC.prevRank = specPredecessor threeC :=
  ⟨by decide, (claim_C9 threeC (by decide)).2.2.2.2⟩

/-- C10. Clearing always unblocks dealing: after `clearUnfinished` on a
reachable board every blank has a null position, nothing is movable, and a
following `deal` under any shuffle outcome succeeds and fully repopulates
the rows. -/
theorem claim_C10 {g : Game} (h : Reachable g) :
    (∀ b ∈ Deck.getBlanks, g.clearUnfinished.posOf b = none) ∧
    g.clearUnfinished.getMovableCards = [] ∧
    ∀ rand : Nat → Nat, ∃ g', Game.deal rand g.clearUnfinished = some g' ∧
      g'.stock = [] ∧ (∀ row ∈ g'.rows, row.length = 13) := by
  have hWF := WF_reachable h
  refine ⟨clear_blanksNull hWF, clear_movable_empty hWF, fun rand => ?_⟩
  obtain ⟨g', hd, hstock, -, h13, -, -⟩ :=
    deal_spec hWF.clear (clear_movable_empty hWF) rand
  exact ⟨g', hd, hstock, h13⟩

theorem claim_C10_witness :
    Reachable g2 ∧ g2.clearUnfinished.getMovableCards = [] :=
  ⟨reach_g2, (claim_C10 reach_g2).2.1⟩
